import Mathlib

/-!
Shallow embedding of `normalize_armature_weights.py` (Blender add-on
"Normalize Armature Weights").  Weights are modelled as exact rationals.
Mutation is modelled by explicit state passing; a Python exception
(AttributeError on a missing active group, ValueError from `list.index`)
is modelled as `none`.
-/

attribute [local semireducible] Rat.add Rat.mul Rat.sub Rat.inv

/-- One element of `vert.groups`: a (vertex-group index, weight) pair. -/
structure GroupEntry where
  group : Nat
  weight : ℚ
deriving Repr, DecidableEq

/-- A mesh vertex: its index in the vertex array, its selection flag and its
sparse group-weight entries (`vert.groups`). -/
structure Vertex where
  index : Nat
  select : Bool
  groups : List GroupEntry
deriving Repr, DecidableEq

/-- `obj.data`: the vertex array of the mesh. -/
structure Mesh where
  vertices : List Vertex
deriving Repr, DecidableEq

/-- An entry of `obj.vertex_groups`; its index is its position in the list. -/
structure VertexGroup where
  name : String
deriving Repr, DecidableEq

/-- A bone of an armature (`mod.object.data.bones` element). -/
structure Bone where
  name : String
deriving Repr, DecidableEq

/-- The data of an armature object referenced by a modifier (`mod.object`). -/
structure ArmatureObject where
  bones : List Bone
deriving Repr, DecidableEq

/-- A modifier on the mesh object (`obj.modifiers` element). -/
structure Modifier where
  type : String
  use_vertex_groups : Bool
  object : Option ArmatureObject
deriving Repr, DecidableEq

/-- `context.object`: the mesh object with its data, group table, active
group index, modifier stack and current interaction mode
(`obj.mode`, a `mode_set` identifier such as "WEIGHT_PAINT"). -/
structure Obj where
  mesh : Mesh
  vertex_groups : List VertexGroup
  active_index : Nat
  modifiers : List Modifier
  mode : String
deriving Repr, DecidableEq

/-- `context.scene.tool_settings` (only the field the add-on touches). -/
structure ToolSettings where
  vertex_group_weight : ℚ
deriving Repr, DecidableEq

/-- The ambient Blender context consumed by the add-on. -/
structure Context where
  obj : Obj
  tool : ToolSettings
deriving Repr, DecidableEq

/-- The observable outcome of the operator: the reports it issued
(level, message), the returned status string, and the final state. -/
structure OpResult where
  reports : List (String × String)
  status : String
  ctx : Context
deriving Repr, DecidableEq

/-! ## Mode strings

`bpy.context.mode` reports "PAINT_WEIGHT" / "EDIT_MESH" / … while
`bpy.ops.object.mode_set` consumes "WEIGHT_PAINT" / "EDIT" / ….  We store
the `mode_set` identifier in `Obj.mode`; `contextMode` converts it to the
`bpy.context.mode` form that `assign_all_groups` reads. -/
def contextMode (objMode : String) : String :=
  if objMode = "EDIT" then "EDIT_MESH"
  else if objMode = "WEIGHT_PAINT" then "PAINT_WEIGHT"
  else if objMode = "VERTEX_PAINT" then "PAINT_VERTEX"
  else if objMode = "TEXTURE_PAINT" then "PAINT_TEXTURE"
  else if objMode = "GPENCIL_PAINT" then "PAINT_GPENCIL"
  else objMode

/-- Does the character list `l` contain `sub` as a contiguous substring?
(The Python expression `'EDIT' in mode`.) -/
def hasSubstring (sub : List Char) : List Char → Bool
  | [] => sub.isPrefixOf []
  | c :: t => sub.isPrefixOf (c :: t) || hasSubstring sub t

/-- `mode.split("_")[0]`: the characters before the first underscore. -/
def beforeFirstUnderscore (l : List Char) : List Char :=
  l.takeWhile (fun c => c ≠ '_')

/-- `mode.split("_")[-1]`: the characters after the last underscore. -/
def afterLastUnderscore (l : List Char) : List Char :=
  (l.reverse.takeWhile (fun c => c ≠ '_')).reverse

/-- `restore_mode`: maps a saved `bpy.context.mode` string back to the
`mode_set` identifier the source passes to `bpy.ops.object.mode_set`
("EDIT" when the mode contains "EDIT", otherwise the two halves around the
underscore swapped, otherwise the mode itself). -/
def restore_mode (mode : String) : String :=
  let l := mode.data
  if hasSubstring [ 'E', 'D', 'I', 'T'] l then "EDIT"
  else if l.any (fun c => c = '_') then
    String.mk (afterLastUnderscore l ++ '_' :: beforeFirstUnderscore l)
  else mode

/-! ## Membership Guarantor (`assign_all_groups`) -/

/-- `group.weight = w` on every entry of the given group
(the effect of `vertex_group_assign` on a vertex already in the group). -/
def replaceWeight (g : Nat) (w : ℚ) (entries : List GroupEntry) : List GroupEntry :=
  entries.map (fun e => if e.group = g then { e with weight := w } else e)

/-- `bpy.ops.mesh.select_all(action='DESELECT')`. -/
def deselect_all (o : Obj) : Obj :=
  { o with mesh := ⟨o.mesh.vertices.map (fun v => { v with select := false })⟩ }

/-- `mesh.verts[vert].select = 1` for each listed vertex index. -/
def select_verts (o : Obj) (ids : List Nat) : Obj :=
  let vs := o.mesh.vertices.map (fun v => if v.index ∈ ids then { v with select := true } else v)
  { o with mesh := ⟨vs⟩ }

/-- The effect of `vertex_group_assign` on one vertex: a selected vertex is
assigned to the group `g` at weight `w`, others are untouched. -/
def assignVertex (g : Nat) (w : ℚ) (v : Vertex) : Vertex :=
  if v.select then
    if v.groups.any (fun e => e.group = g)
    then { v with groups := replaceWeight g w v.groups }
    else { v with groups := v.groups ++ [⟨g, w⟩] }
  else v

/-- `bpy.ops.object.vertex_group_assign()`: assign every selected vertex to
the active group at the tool-settings weight `w` (creating a zero entry for
vertices not yet in the group, overwriting the weight of those already in). -/
def vertex_group_assign (o : Obj) (w : ℚ) : Obj :=
  { o with mesh := ⟨o.mesh.vertices.map (assignVertex o.active_index w)⟩ }

/-- One iteration of the assignment loop of `assign_all_groups`:
deselect all, select the vertices recorded as not in the group, make the
group active, and run `vertex_group_assign` at weight `w`. -/
def assignStep (w : ℚ) (o : Obj) (step : Nat × List Nat) : Obj :=
  vertex_group_assign { select_verts (deselect_all o) step.2 with active_index := step.1 } w

/-- One row of the `not_found` table: the indices of the vertices that
have no entry for the given group. -/
def not_found_of (mesh : Mesh) (gi : Nat) : List Nat :=
  (mesh.vertices.filter (fun v => ¬ v.groups.any (fun e => e.group = gi))).map
    (fun v => v.index)

/-- The `not_found` table of `assign_all_groups`: for each group index, the
indices of the vertices that have no entry for that group. -/
def not_found_list (mesh : Mesh) (group_indexes : List Nat) : List (List Nat) :=
  group_indexes.map (not_found_of mesh)

/-- `assign_all_groups(context, group_indexes)`: ensure every vertex has an
entry for every listed group index, creating missing entries at weight 0.
Saves the context mode and the tool-settings weight, switches to EDIT mode,
records the active group index, runs the selection/assignment loop at
weight 0, then restores mode, tool weight and active index. -/
def assign_all_groups (ctx : Context) (group_indexes : List Nat) : Context :=
  let mode := contextMode ctx.obj.mode
  let old_weight := ctx.tool.vertex_group_weight
  let obj0 := { ctx.obj with mode := "EDIT" }
  let active_index := obj0.active_index
  let nf := not_found_list obj0.mesh group_indexes
  let obj1 := (group_indexes.zip nf).foldl (assignStep 0) obj0
  let obj2 := { obj1 with mode := restore_mode mode, active_index := active_index }
  { obj := obj2, tool := { vertex_group_weight := old_weight } }

/-! ## Weight Normalizer (`normalize_armature`), per-vertex part -/

/-- Python `min`: the first argument on ties. -/
def pymin (a b : ℚ) : ℚ := if a ≤ b then a else b

/-- Python `max`: the first argument on ties. -/
def pymax (a b : ℚ) : ℚ := if b ≤ a then a else b

/-- `max(min(weight, 1.0), 0.0)`. -/
def clamp01 (w : ℚ) : ℚ := pymax (pymin w 1) 0

/-- The clamping assignment of the gather loop acting on one entry:
an entry on an armature group gets its weight clamped to [0, 1]. -/
def clampEntry (bi : List Nat) (e : GroupEntry) : GroupEntry :=
  if e.group ∈ bi then { e with weight := clamp01 e.weight } else e

/-- The clamping pass of the gather loop: every entry whose group is an
armature group gets its weight clamped to [0, 1] in place. -/
def clampEntries (bi : List Nat) (entries : List GroupEntry) : List GroupEntry :=
  entries.map (clampEntry bi)

/-- The `weights` list of the gather loop: the clamped weights of the
entries lying on armature groups, in entry order. -/
def collWeights (bi : List Nat) (entries : List GroupEntry) : List ℚ :=
  ((clampEntries bi entries).filter (fun e => e.group ∈ bi)).map (fun e => e.weight)

/-- The `indexes` list of the gather loop: the positions (in `vert.groups`)
of the entries lying on armature groups. -/
def collIndexes (bi : List Nat) (entries : List GroupEntry) : List Int :=
  (entries.enum.filter (fun p => p.2.group ∈ bi)).map (fun p => (p.1 : Int))

/-- The running `sum` of the gather loop: total of the clamped collected
weights. -/
def collSum (bi : List Nat) (entries : List GroupEntry) : ℚ :=
  (collWeights bi entries).sum

/-- The running `sum_other` of the gather loop: total of the clamped
collected weights whose group is not the active index. -/
def collSumOther (bi : List Nat) (ai : Nat) (entries : List GroupEntry) : ℚ :=
  (((clampEntries bi entries).filter (fun e => e.group ∈ bi ∧ e.group ≠ ai)).map
    (fun e => e.weight)).sum

/-- The `active_group` variable of the gather loop: the position of the
(last) collected entry whose group is the active index, `-1` if none. -/
def collActive (bi : List Nat) (ai : Nat) (entries : List GroupEntry) : Int :=
  entries.enum.foldl
    (fun acc p => if p.2.group ∈ bi ∧ p.2.group = ai then (p.1 : Int) else acc) (-1)

/-- `groups[pos].weight = w` (update of the entry at a list position). -/
def setWeightAt : List GroupEntry → Nat → ℚ → List GroupEntry
  | [], _, _ => []
  | e :: es, 0, w => { e with weight := w } :: es
  | e :: es, n + 1, w => e :: setWeightAt es n w

/-- A run of in-place weight writes `groups[pos].weight = w`, performed
left to right.  All positions produced by the algorithm are nonnegative,
so the `Int.toNat` coercion is exact. -/
def writeWeights (entries : List GroupEntry) (ps : List (Int × ℚ)) : List GroupEntry :=
  ps.foldl (fun es p => setWeightAt es p.1.toNat p.2) entries

/-- `groups[pos].weight` read on the (clamped) entry list. -/
def entryWeightAt (entries : List GroupEntry) (pos : Nat) : ℚ :=
  (entries.getD pos ⟨0, 0⟩).weight

/-- The per-vertex body of `normalize_armature` acting on the entry list of
one vertex: gather and clamp the armature-group weights, then apply the
redistribution branches.  `none` models the ValueError raised by
`indexes.index(active_group)` when the active group was not collected and
`sum_other` is zero. -/
def normalizeVertexEntries (bi : List Nat) (ai : Nat) (entries0 : List GroupEntry) :
    Option (List GroupEntry) :=
  let entries := clampEntries bi entries0
  let weights := collWeights bi entries0
  let indexes := collIndexes bi entries0
  let s := collSum bi entries0
  let sOther := collSumOther bi ai entries0
  let activeGroup := collActive bi ai entries0
  if s ≠ 1 then
    if activeGroup = -1 ∧ sOther ≠ 0 then
      -- vertex not in active group: normalize proportionally
      some (writeWeights entries (indexes.zip (weights.map (fun w => w / sOther))))
    else
      match indexes.findIdx? (fun i => i == activeGroup) with
      | none => none
      | some pos =>
        if weights.getD pos 0 ≥ 1 then
          -- active group at or above 1: zero the others, force active to 1
          some (setWeightAt (writeWeights entries (indexes.map (fun i => (i, (0 : ℚ)))))
            activeGroup.toNat 1)
        else
          let bias := 1 - entryWeightAt entries activeGroup.toNat
          if sOther ≠ 0 then
            -- other groups carry weight: distribute the remainder proportionally
            some (writeWeights entries ((indexes.zip weights).filterMap
              (fun p => if p.1 ≠ activeGroup then some (p.1, bias * (p.2 / sOther)) else none)))
          else if s ≠ 0 ∧ weights.length > 1 then
            -- active group below 1, all others zero: spread `bias * (1 / len(weights))`
            let w := bias * (1 / (weights.length : ℚ))
            some (writeWeights entries (indexes.filterMap
              (fun i => if i ≠ activeGroup then some (i, w) else none)))
          else some entries
  else some entries

/-- Per-vertex normalization lifted to a `Vertex`. -/
def normalizeVertex (bi : List Nat) (ai : Nat) (v : Vertex) : Option Vertex :=
  (normalizeVertexEntries bi ai v.groups).map (fun es => { v with groups := es })

/-! ## Weight Normalizer, whole operation -/

/-- Does a modifier qualify as an armature binding
(`mod.type == 'ARMATURE' and mod.use_vertex_groups and mod.object`)? -/
def qualifies (m : Modifier) : Bool :=
  m.type = "ARMATURE" ∧ m.use_vertex_groups ∧ m.object.isSome

/-- The bone-name list a qualifying modifier contributes. -/
def modBones (m : Modifier) : List String :=
  match m.object with
  | some a => a.bones.map (fun b => b.name)
  | none => []

/-- The armature-scanning loop of `normalize_armature`: walks the modifier
stack, overwriting `bones` with each qualifying modifier's bone names and
counting qualifying modifiers, stopping as soon as the count reaches 2. -/
def scanModifiers : List Modifier → List String → Nat → List String × Nat
  | [], bones, n => (bones, n)
  | m :: rest, bones, n =>
    if qualifies m then
      let bones := modBones m
      let n := n + 1
      if n = 2 then (bones, n) else scanModifiers rest bones n
    else scanModifiers rest bones n

/-- `[group.index for group in obj.vertex_groups if group.name in bones]`. -/
def boneIndexes (groups : List VertexGroup) (bones : List String) : List Nat :=
  (groups.enum.filter (fun p => p.2.name ∈ bones)).map (fun p => p.1)

/-- The report message of the no-armature error. -/
def msgNoArmature : String := "No armature found on object."

/-- The report message of the active-group error. -/
def msgNotOnArmature : String := "Current vertex group not found on armature."

/-- The report message of the multiple-armatures warning. -/
def msgMultiple : String := "Multiple armatures found on object.  Operator may have unexpected results."

/-- `normalize_armature(cls, context)`: scan the modifiers for armature
bone names, run the two fatal precondition checks, warn on multiple
armatures, guarantee membership on the armature groups, then rewrite every
vertex with the per-vertex normalization.  `none` models an uncaught
Python exception. -/
def normalize_armature (ctx : Context) : Option OpResult :=
  let bones := (scanModifiers ctx.obj.modifiers [] 0).1
  let armatures := (scanModifiers ctx.obj.modifiers [] 0).2
  if bones = [] then
    some ⟨[("ERROR", msgNoArmature)], "CANCELLED", ctx⟩
  else
    match ctx.obj.vertex_groups.get? ctx.obj.active_index with
    | none => none
    | some active =>
      if active.name ∉ bones then
        some ⟨[("ERROR", msgNotOnArmature)], "CANCELLED", ctx⟩
      else
        let reports := if armatures > 1 then [("WARNING", msgMultiple)] else []
        let bone_indexes := boneIndexes ctx.obj.vertex_groups bones
        let ctx1 := assign_all_groups ctx bone_indexes
        let active_index := ctx1.obj.active_index
        match ctx1.obj.mesh.vertices.mapM (normalizeVertex bone_indexes active_index) with
        | none => none
        | some vs =>
          some ⟨reports, "FINISHED",
            { ctx1 with obj := { ctx1.obj with mesh := ⟨vs⟩ } }⟩

/-! ## Statement-side helpers -/

/-- The sum of a vertex's weights restricted to the armature groups. -/
def armSum (bi : List Nat) (entries : List GroupEntry) : ℚ :=
  ((entries.filter (fun e => e.group ∈ bi)).map (fun e => e.weight)).sum

/-- The weights a vertex carries for one particular group id,
in entry order (normally empty or a singleton). -/
def groupWeights (g : Nat) (entries : List GroupEntry) : List ℚ :=
  ((entries.filter (fun e => e.group = g)).map (fun e => e.weight))

/-- Blender invariant: the `index` field of every vertex equals its
position in the vertex array. -/
def IndexCoherent (m : Mesh) : Prop :=
  ∀ i (h : i < m.vertices.length), (m.vertices.get ⟨i, h⟩).index = i

/-- The bone-name list of the first qualifying armature binding, written
from the spec's words ("the first one discovered") for comparison with the
scanning loop of the source. -/
def firstQualifyingBones : List Modifier → Option (List String)
  | [] => none
  | m :: rest => if qualifies m then some (modBones m) else firstQualifyingBones rest

/-- The entry list produced for one vertex by the Guarantor: the original
entries followed by zero-weight entries for the listed groups the vertex
was missing. -/
def assignedGroups (G : List Nat) (es : List GroupEntry) : List GroupEntry :=
  es ++ (G.filter (fun g => ¬ es.any (fun e => e.group = g))).map (fun g => ⟨g, 0⟩)

/-- The collected (position, clamped entry) pairs of a vertex: the entries
of the clamped list that lie on armature groups, with their positions. -/
def collPairs (bi : List Nat) (es : List GroupEntry) : List (Nat × GroupEntry) :=
  (clampEntries bi es).enum.filter (fun p => p.2.group ∈ bi)

/-- The per-vertex effect of one assignment-loop iteration: the vertex's
selection becomes "was recorded as missing", and if selected it is
assigned to the group at weight `w`. -/
def assignStepVertex (w : ℚ) (st : Nat × List Nat) (v : Vertex) : Vertex :=
  assignVertex st.1 w { v with select := decide (v.index ∈ st.2) }

/-- The bone-name list the scanning loop produces. -/
def bonesOf (ctx : Context) : List String :=
  (scanModifiers ctx.obj.modifiers [] 0).1

/-- The qualifying-binding count the scanning loop produces (capped at 2). -/
def armaturesOf (ctx : Context) : Nat :=
  (scanModifiers ctx.obj.modifiers [] 0).2

/-! ## Concrete fixtures -/

/-- An armature modifier that drives vertex groups, with the given bone
names. -/
def armMod (names : List String) : Modifier :=
  ⟨"ARMATURE", true, some ⟨names.map (fun n => ⟨n⟩)⟩⟩

/-- A one-object context: vertices, group names, active group index and
modifier stack, in WEIGHT_PAINT mode with tool weight 1. -/
def mkCtx (vs : List Vertex) (gs : List String) (ai : Nat) (ms : List Modifier) : Context :=
  ⟨⟨⟨vs⟩, gs.map (fun n => ⟨n⟩), ai, ms, "WEIGHT_PAINT"⟩, ⟨1⟩⟩

/-- Active-group weight 1/2 and one other zero-weight armature entry: the
Case D configuration. -/
def ctxD : Context :=
  mkCtx [⟨0, false, [⟨0, mkRat 1 2⟩, ⟨1, 0⟩]⟩] ["A", "B"] 0 [armMod ["A", "B"]]

/-- A vertex carrying weight 1/2 on its single armature group, which is the
active one. -/
def ctxSingle : Context :=
  mkCtx [⟨0, false, [⟨0, mkRat 1 2⟩]⟩] ["A"] 0 [armMod ["A"]]

/-- Active entry 1/2 and another armature entry 1/4: the Case C
configuration. -/
def ctxC : Context :=
  mkCtx [⟨0, false, [⟨0, mkRat 1 2⟩, ⟨1, mkRat 1 4⟩]⟩] ["A", "B"] 0 [armMod ["A", "B"]]

/-- Two qualifying armature bindings with different bone sets; the active
group is a bone of the second binding only. -/
def ctxTwoArms : Context :=
  mkCtx [⟨0, false, [⟨0, 1⟩]⟩] ["B"] 0 [armMod ["A"], armMod ["B"]]

/-- No modifier at all: the no-armature error path. -/
def ctxNoArm : Context :=
  mkCtx [⟨0, false, [⟨0, 1⟩]⟩] ["A"] 0 []

/-- The active group is not named after any bone of the armature. -/
def ctxWrongGroup : Context :=
  mkCtx [⟨0, false, [⟨0, 1⟩]⟩] ["C"] 0 [armMod ["A"]]

/-- A selected vertex already in the armature group: the Guarantor leaves
its membership alone but rewrites its selection. -/
def ctxSel : Context :=
  mkCtx [⟨0, true, [⟨0, 1⟩]⟩] ["A"] 0 [armMod ["A"]]

/-- A non-armature group carrying weight 3/4 next to an armature entry of
1/2. -/
def ctxFrame : Context :=
  mkCtx [⟨0, false, [⟨0, mkRat 1 2⟩, ⟨1, mkRat 3 4⟩]⟩] ["A", "X"] 0 [armMod ["A"]]

/-! ## General list lemmas -/

theorem zip_self_map {α β : Type} (l : List α) (f : α → β) :
    l.zip (l.map f) = l.map (fun a => (a, f a)) := by
  induction l with
  | nil => rfl
  | cons a t ih => simp [ih]

theorem map_filter_eq_filterMap {α β : Type} (c : α → Bool) (f : α → β) (l : List α) :
    (l.filter c).map f = l.filterMap (fun a => if c a then some (f a) else none) := by
  induction l with
  | nil => rfl
  | cons a t ih =>
    by_cases h : c a <;> simp [List.filter_cons, h, ih]

theorem sum_filter_split (l : List (Nat × GroupEntry)) (f : Nat × GroupEntry → ℚ)
    (c A : Nat × GroupEntry → Bool) :
    ((l.filter c).map f).sum
      = ((l.filter (fun a => c a && A a)).map f).sum
        + ((l.filter (fun a => c a && ! A a)).map f).sum := by
  induction l with
  | nil => simp
  | cons a t ih =>
    by_cases h1 : c a
    · by_cases h2 : A a <;>
        simp [List.filter_cons, h1, h2, ih] <;> ring
    · simp [List.filter_cons, h1, ih]

theorem filter_eq_singleton {α : Type} [DecidableEq α] (l : List α) (p : α → Bool) (x : α)
    (hnd : l.Nodup) (hx : x ∈ l) (hpx : p x = true)
    (huniq : ∀ y ∈ l, p y = true → y = x) :
    l.filter p = [x] := by
  induction l with
  | nil => cases hx
  | cons a t ih =>
    rcases List.mem_cons.mp hx with rfl | hxt
    · have ht : t.filter p = [] := by
        rw [List.filter_eq_nil_iff]
        intro y hy hpy
        have := huniq y (List.mem_cons_of_mem _ hy) hpy
        subst this
        exact (List.nodup_cons.mp hnd).1 hy
      simp [List.filter_cons, hpx, ht]
    · have ha : p a = false := by
        by_contra h
        have : a = x := huniq a (List.mem_cons_self a t) (by simpa using h)
        subst this
        exact (List.nodup_cons.mp hnd).1 hxt
      rw [List.filter_cons, if_neg (by simp [ha])]
      exact ih (List.nodup_cons.mp hnd).2 hxt
        (fun y hy hpy => huniq y (List.mem_cons_of_mem _ hy) hpy)

/-! ## `setWeightAt` and `writeWeights` as maps over the enumeration -/

theorem setWeightAt_append (w : ℚ) :
    ∀ (pre : List GroupEntry) (e : GroupEntry) (es : List GroupEntry),
      setWeightAt (pre ++ e :: es) pre.length w = pre ++ { e with weight := w } :: es
  | [], _, _ => rfl
  | _ :: pre, e, es => congrArg _ (setWeightAt_append w pre e es)

theorem setWeightAt_map_form :
    ∀ (es : List GroupEntry) (n : Nat) (w : ℚ) (k : Nat),
      setWeightAt es n w
        = (es.enumFrom k).map
            (fun p => if p.1 = k + n then { p.2 with weight := w } else p.2)
  | [], _, _, _ => rfl
  | e :: es, 0, w, k => by
    have tail : ∀ (t : List GroupEntry) (m : Nat), k + 0 < m →
        (t.enumFrom m).map
          (fun p => if p.1 = k + 0 then { p.2 with weight := w } else p.2) = t := by
      intro t
      induction t with
      | nil => intro m _; rfl
      | cons a u ih =>
        intro m hm
        simp only [List.enumFrom_cons, List.map_cons]
        rw [if_neg (by omega), ih (m + 1) (by omega)]
    simp only [setWeightAt, List.enumFrom_cons, List.map_cons]
    rw [tail es (k + 1) (by omega), if_pos (by omega)]
  | e :: es, n + 1, w, k => by
    have ih := setWeightAt_map_form es n w (k + 1)
    simp only [setWeightAt, List.enumFrom_cons, List.map_cons]
    rw [if_neg (by omega)]
    rw [ih]
    congr 1
    apply List.map_congr_left
    intro p _
    by_cases h : p.1 = k + 1 + n
    · rw [if_pos h, if_pos (by omega)]
    · rw [if_neg h, if_neg (by omega)]

theorem writeWeights_cons (es : List GroupEntry) (p : Int × ℚ) (ps : List (Int × ℚ)) :
    writeWeights es (p :: ps) = writeWeights (setWeightAt es p.1.toNat p.2) ps := rfl

theorem writeWeights_map_form (f : Nat × GroupEntry → Option ℚ) :
    ∀ (es pre : List GroupEntry),
      writeWeights (pre ++ es)
        ((es.enumFrom pre.length).filterMap
          (fun p => (f p).map (fun w => ((p.1 : Int), w))))
      = pre ++ (es.enumFrom pre.length).map
          (fun p => match f p with | some w => { p.2 with weight := w } | none => p.2)
  | [], pre => by simp [writeWeights]
  | e :: es, pre => by
    simp only [List.enumFrom_cons, List.filterMap_cons, List.map_cons]
    cases hf : f (pre.length, e) with
    | none =>
      have ih := writeWeights_map_form f es (pre ++ [e])
      simp only [List.append_assoc, List.singleton_append, List.length_append,
        List.length_cons, List.length_nil, Nat.zero_add] at ih
      simpa [hf] using ih
    | some w =>
      have ih := writeWeights_map_form f es (pre ++ [{ e with weight := w }])
      simp only [List.append_assoc, List.singleton_append, List.length_append,
        List.length_cons, List.length_nil, Nat.zero_add] at ih
      simp only [hf, Option.map_some']
      rw [writeWeights_cons]
      simp only [Int.toNat_natCast, setWeightAt_append]
      simpa [hf] using ih

theorem writeWeights_enum_map (f : Nat × GroupEntry → Option ℚ) (es : List GroupEntry) :
    writeWeights es
        (es.enum.filterMap (fun p => (f p).map (fun w => ((p.1 : Int), w))))
      = es.enum.map
          (fun p => match f p with | some w => { p.2 with weight := w } | none => p.2) :=
  writeWeights_map_form f es []

/-! ## Clamping lemmas -/

theorem clampEntry_group (bi : List Nat) (e : GroupEntry) :
    (clampEntry bi e).group = e.group := by
  unfold clampEntry
  split <;> rfl

theorem clampEntry_not_mem (bi : List Nat) (e : GroupEntry) (h : ¬ e.group ∈ bi) :
    clampEntry bi e = e := by
  unfold clampEntry
  rw [if_neg h]

theorem clampEntry_mem (bi : List Nat) (e : GroupEntry) (h : e.group ∈ bi) :
    clampEntry bi e = { e with weight := clamp01 e.weight } := by
  unfold clampEntry
  rw [if_pos h]

theorem clamp01_nonneg (w : ℚ) : 0 ≤ clamp01 w := by
  unfold clamp01 pymax pymin
  split_ifs <;> linarith

theorem clamp01_le_one (w : ℚ) : clamp01 w ≤ 1 := by
  unfold clamp01 pymax pymin
  split_ifs <;> linarith

theorem clamp01_eq_self (w : ℚ) (h0 : 0 ≤ w) (h1 : w ≤ 1) : clamp01 w = w := by
  unfold clamp01 pymax pymin
  split_ifs
  linarith

theorem one_le_clamp01_iff (w : ℚ) : 1 ≤ clamp01 w ↔ 1 ≤ w := by
  unfold clamp01 pymax pymin
  split_ifs <;> constructor <;> intro <;> linarith

theorem clamp01_pos_iff (w : ℚ) : 0 < clamp01 w ↔ 0 < w := by
  unfold clamp01 pymax pymin
  split_ifs <;> constructor <;> intro <;> linarith

/-! ## Enumeration lemmas -/

theorem enumFrom_map_pair {α β : Type} (g : α → β) :
    ∀ (l : List α) (n : Nat),
      (l.map g).enumFrom n = (l.enumFrom n).map (fun p => (p.1, g p.2))
  | [], _ => rfl
  | a :: t, n => by
    simp only [List.map_cons, List.enumFrom_cons]
    rw [enumFrom_map_pair g t (n + 1)]

theorem enum_map_pair {α β : Type} (g : α → β) (l : List α) :
    (l.map g).enum = l.enum.map (fun p => (p.1, g p.2)) :=
  enumFrom_map_pair g l 0

theorem enumFrom_enumFrom {α : Type} :
    ∀ (l : List α) (n : Nat),
      (l.enumFrom n).enumFrom n = (l.enumFrom n).map (fun p => (p.1, p))
  | [], _ => rfl
  | a :: t, n => by
    simp only [List.enumFrom_cons, List.map_cons]
    rw [enumFrom_enumFrom t (n + 1)]

theorem enum_enum {α : Type} (l : List α) :
    l.enum.enum = l.enum.map (fun p => (p.1, p)) :=
  enumFrom_enumFrom l 0

theorem filter_snd_map_snd {α : Type} (q : α → Bool) (l : List α) :
    (l.enum.filter (fun p => q p.2)).map Prod.snd = l.filter q := by
  conv_rhs => rw [← List.enumFrom_map_snd 0 l, List.filter_map]
  rfl

theorem filterMap_filter {α β : Type} (c : α → Bool) (f : α → Option β) (l : List α) :
    (l.filter c).filterMap f = l.filterMap (fun a => if c a then f a else none) := by
  induction l with
  | nil => rfl
  | cons a t ih =>
    by_cases h : c a
    · cases hf : f a <;> simp [List.filter_cons, List.filterMap_cons, h, hf, ih]
    · simp [List.filter_cons, List.filterMap_cons, h, ih]

theorem filterMap_congr_mem {α β : Type} {f g : α → Option β} :
    ∀ (l : List α), (∀ a ∈ l, f a = g a) → l.filterMap f = l.filterMap g
  | [], _ => rfl
  | a :: t, h => by
    simp only [List.filterMap_cons, h a (List.mem_cons_self a t)]
    rw [filterMap_congr_mem t (fun x hx => h x (List.mem_cons_of_mem a hx))]

/-! ## Characterizing the gather loop -/

theorem collPairs_eq (bi : List Nat) (es : List GroupEntry) :
    collPairs bi es
      = (es.enum.filter (fun p => p.2.group ∈ bi)).map
          (fun p => (p.1, clampEntry bi p.2)) := by
  unfold collPairs clampEntries
  rw [enum_map_pair, List.filter_map]
  congr 1
  apply List.filter_congr
  intro p _
  simp [clampEntry_group]

theorem collWeights_eq (bi : List Nat) (es : List GroupEntry) :
    collWeights bi es = (collPairs bi es).map (fun p => p.2.weight) := by
  unfold collWeights collPairs
  rw [← filter_snd_map_snd, List.map_map]
  rfl

theorem collIndexes_eq (bi : List Nat) (es : List GroupEntry) :
    collIndexes bi es = (collPairs bi es).map (fun p => (p.1 : Int)) := by
  unfold collIndexes
  rw [collPairs_eq, List.map_map]
  rfl

theorem collSum_eq (bi : List Nat) (es : List GroupEntry) :
    collSum bi es = ((collPairs bi es).map (fun p => p.2.weight)).sum := by
  unfold collSum
  rw [collWeights_eq]

theorem collSumOther_eq (bi : List Nat) (ai : Nat) (es : List GroupEntry) :
    collSumOther bi ai es
      = (((clampEntries bi es).enum.filter
          (fun p => p.2.group ∈ bi ∧ p.2.group ≠ ai)).map (fun p => p.2.weight)).sum := by
  unfold collSumOther
  rw [← filter_snd_map_snd, List.map_map]
  rfl

theorem foldl_lastIdx (P : Nat × GroupEntry → Prop) [DecidablePred P] :
    ∀ (l : List (Nat × GroupEntry)) (init : Int),
      l.foldl (fun acc p => if P p then (p.1 : Int) else acc) init
        = match (l.filter (fun p => P p)).getLast? with
          | some q => (q.1 : Int)
          | none => init := by
  intro l
  induction l using List.reverseRecOn with
  | nil => intro init; rfl
  | append_singleton t p ih =>
    intro init
    rw [List.foldl_append, List.filter_append]
    by_cases h : P p
    · simp [h, List.getLast?_concat]
    · simp [h, ih]

theorem collActive_char (bi : List Nat) (ai : Nat) (es : List GroupEntry) :
    collActive bi ai es
      = match (es.enum.filter (fun p => p.2.group ∈ bi ∧ p.2.group = ai)).getLast? with
        | some q => (q.1 : Int)
        | none => -1 := by
  unfold collActive
  exact foldl_lastIdx (fun p => p.2.group ∈ bi ∧ p.2.group = ai) es.enum (-1)

theorem snd_mem_of_mem_enum {α : Type} {p : Nat × α} {l : List α} (h : p ∈ l.enum) :
    p.2 ∈ l := by
  rw [List.enum_eq_enumFrom] at h
  have h2 := List.mem_map_of_mem Prod.snd h
  rwa [List.enumFrom_map_snd] at h2

theorem exists_enum_of_mem {α : Type} {e : α} {l : List α} (h : e ∈ l) :
    ∃ p ∈ l.enum, p.2 = e := by
  have h2 : e ∈ List.map Prod.snd (l.enumFrom 0) := by
    rw [List.enumFrom_map_snd]
    exact h
  rw [← List.enum_eq_enumFrom, List.mem_map] at h2
  obtain ⟨p, hp, hpe⟩ := h2
  exact ⟨p, hp, hpe⟩

theorem collActive_eq_neg1_iff (bi : List Nat) (ai : Nat) (es : List GroupEntry) :
    collActive bi ai es = -1 ↔ ∀ e ∈ es, ¬(e.group ∈ bi ∧ e.group = ai) := by
  rw [collActive_char]
  split
  · next q hlast =>
    constructor
    · intro h
      simp at h
    · intro h
      have hq := List.mem_of_getLast?_eq_some hlast
      rw [List.mem_filter] at hq
      have hq2 := hq.2
      simp only [decide_eq_true_eq] at hq2
      exact absurd hq2 (h q.2 (snd_mem_of_mem_enum hq.1))
  · next hlast =>
    rw [List.getLast?_eq_none_iff, List.filter_eq_nil_iff] at hlast
    constructor
    · intro _ e he hP
      obtain ⟨p, hp, rfl⟩ := exists_enum_of_mem he
      exact hlast p hp (by simpa using hP)
    · intro _
      rfl

theorem mem_enum_iff {α : Type} {p : Nat × α} {l : List α} :
    p ∈ l.enum ↔ ∃ h : p.1 < l.length, l.get ⟨p.1, h⟩ = p.2 := by
  rw [List.mem_enum_iff_getElem?]
  constructor
  · intro h
    have hlt : p.1 < l.length := by
      by_contra hge
      rw [List.getElem?_eq_none (by omega)] at h
      cases h
    refine ⟨hlt, ?_⟩
    rw [List.getElem?_eq_getElem hlt] at h
    simpa [List.get_eq_getElem] using h
  · rintro ⟨h, hget⟩
    rw [List.getElem?_eq_getElem h, ← hget]
    simp [List.get_eq_getElem]

theorem enum_nodup {α : Type} (l : List α) : l.enum.Nodup :=
  (List.nodup_enum_map_fst l).of_map Prod.fst

theorem collPairs_mem_iff (bi : List Nat) (es : List GroupEntry) (p : Nat × GroupEntry) :
    p ∈ collPairs bi es ↔ p ∈ (clampEntries bi es).enum ∧ p.2.group ∈ bi := by
  unfold collPairs
  rw [List.mem_filter]
  simp

theorem collPairs_nodup (bi : List Nat) (es : List GroupEntry) :
    (collPairs bi es).Nodup :=
  (enum_nodup (clampEntries bi es)).filter _

theorem collPairs_fst_nodup (bi : List Nat) (es : List GroupEntry) :
    ((collPairs bi es).map Prod.fst).Nodup := by
  have hsub : List.Sublist (collPairs bi es) ((clampEntries bi es).enum) :=
    List.filter_sublist _
  exact (List.nodup_enum_map_fst _).sublist (hsub.map Prod.fst)

theorem collPairs_snd (bi : List Nat) (es : List GroupEntry) (p : Nat × GroupEntry)
    (hp : p ∈ collPairs bi es) :
    ∃ h : p.1 < es.length, p.2 = clampEntry bi (es.get ⟨p.1, h⟩) := by
  have h1 := (collPairs_mem_iff bi es p).mp hp
  have h2 := mem_enum_iff.mp h1.1
  obtain ⟨hlt, hget⟩ := h2
  unfold clampEntries at hlt hget
  rw [List.length_map] at hlt
  refine ⟨hlt, ?_⟩
  rw [← hget]
  simp [List.get_eq_getElem]

/-- The position recorded in `active_group`, when not `-1`, is the position
of a collected entry on the active group. -/
theorem collActive_spec (bi : List Nat) (ai : Nat) (es : List GroupEntry)
    (h : collActive bi ai es ≠ -1) :
    ∃ k, ∃ hk : k < es.length, collActive bi ai es = (k : Int)
      ∧ (es.get ⟨k, hk⟩).group ∈ bi ∧ (es.get ⟨k, hk⟩).group = ai := by
  rw [collActive_char] at h ⊢
  rcases hlast : (es.enum.filter (fun p => p.2.group ∈ bi ∧ p.2.group = ai)).getLast? with
    _ | q
  · rw [hlast] at h
    simp at h
  · rw [hlast]
    have hq := List.mem_of_getLast?_eq_some hlast
    rw [List.mem_filter] at hq
    obtain ⟨hmem, hpred⟩ := hq
    simp only [decide_eq_true_eq] at hpred
    obtain ⟨hlt, hget⟩ := mem_enum_iff.mp hmem
    refine ⟨q.1, hlt, rfl, ?_, ?_⟩
    · rw [hget]; exact hpred.1
    · rw [hget]; exact hpred.2

theorem collActive_ne_neg1 (bi : List Nat) (ai : Nat) (es : List GroupEntry)
    (h : ∃ e ∈ es, e.group ∈ bi ∧ e.group = ai) :
    collActive bi ai es ≠ -1 := by
  intro hneg
  rw [collActive_eq_neg1_iff] at hneg
  obtain ⟨e, he, hP⟩ := h
  exact hneg e he hP

theorem clampEntries_length (bi : List Nat) (es : List GroupEntry) :
    (clampEntries bi es).length = es.length := by
  unfold clampEntries
  rw [List.length_map]

theorem clampEntries_get (bi : List Nat) (es : List GroupEntry) (k : Nat)
    (hk : k < es.length) :
    (clampEntries bi es).get ⟨k, by rw [clampEntries_length]; exact hk⟩
      = clampEntry bi (es.get ⟨k, hk⟩) := by
  unfold clampEntries
  simp [List.get_eq_getElem]

theorem activePair_mem_collPairs (bi : List Nat) (es : List GroupEntry)
    (k : Nat) (hk : k < es.length) (hgrp : (es.get ⟨k, hk⟩).group ∈ bi) :
    (k, clampEntry bi (es.get ⟨k, hk⟩)) ∈ collPairs bi es := by
  rw [collPairs_mem_iff]
  constructor
  · rw [mem_enum_iff]
    refine ⟨by rw [clampEntries_length]; exact hk, ?_⟩
    exact clampEntries_get bi es k hk
  · rw [clampEntry_group]
    exact hgrp

theorem collWeights_getD_eq (bi : List Nat) (es : List GroupEntry) (pos : Nat)
    (hp : pos < (collPairs bi es).length) :
    (collWeights bi es).getD pos 0 = ((collPairs bi es).get ⟨pos, hp⟩).2.weight := by
  rw [collWeights_eq, List.getD_eq_getElem?_getD,
    List.getElem?_eq_getElem (by rw [List.length_map]; exact hp)]
  simp [List.get_eq_getElem]

/-- When the vertex has a collected entry at position `k`, the
`indexes.index(active_group)` lookup succeeds and finds the pair at `k`. -/
theorem findIdx_active (bi : List Nat) (es : List GroupEntry)
    (k : Nat) (hk : k < es.length) (hgrp : (es.get ⟨k, hk⟩).group ∈ bi) :
    ∃ pos, (collIndexes bi es).findIdx? (fun i => i == (k : Int)) = some pos
      ∧ ∃ hp : pos < (collPairs bi es).length,
          (collPairs bi es).get ⟨pos, hp⟩ = (k, clampEntry bi (es.get ⟨k, hk⟩)) := by
  have hqmem := activePair_mem_collPairs bi es k hk hgrp
  have hkmem : (k : Int) ∈ collIndexes bi es := by
    rw [collIndexes_eq]
    exact List.mem_map_of_mem _ hqmem
  obtain ⟨pos, hpos⟩ : ∃ pos,
      (collIndexes bi es).findIdx? (fun i => i == (k : Int)) = some pos := by
    rw [List.findIdx?_eq_some_of_exists ⟨(k : Int), hkmem, by simp⟩]
    exact ⟨_, rfl⟩
  refine ⟨pos, hpos, ?_⟩
  rw [List.findIdx?_eq_some_iff_getElem] at hpos
  obtain ⟨hlt, hbeq, _⟩ := hpos
  have hlen : (collIndexes bi es).length = (collPairs bi es).length := by
    rw [collIndexes_eq, List.length_map]
  have hp : pos < (collPairs bi es).length := by rw [← hlen]; exact hlt
  refine ⟨hp, ?_⟩
  have hidx : (collIndexes bi es)[pos]
      = (((collPairs bi es).get ⟨pos, hp⟩).1 : Int) := by
    have hmap := collIndexes_eq bi es
    rw [List.getElem_of_eq hmap hlt]
    simp [List.get_eq_getElem]
  have hfst : ((collPairs bi es).get ⟨pos, hp⟩).1 = k := by
    have hb : ((collIndexes bi es)[pos] == (k : Int)) = true := hbeq
    rw [hidx] at hb
    simpa using hb
  have hmem : (collPairs bi es).get ⟨pos, hp⟩ ∈ collPairs bi es := List.get_mem _ _ hp
  obtain ⟨hlt2, hsnd⟩ := collPairs_snd bi es _ hmem
  refine Prod.ext hfst ?_
  dsimp only
  rw [hsnd]
  congr 1
  congr 1
  exact Fin.ext hfst

/-! ## Branch characterizations of the per-vertex algorithm -/

theorem NVE_skip (bi : List Nat) (ai : Nat) (es : List GroupEntry)
    (h : collSum bi es = 1) :
    normalizeVertexEntries bi ai es = some (clampEntries bi es) := by
  unfold normalizeVertexEntries
  rw [if_neg (by simp [h])]

theorem NVE_caseA (bi : List Nat) (ai : Nat) (es : List GroupEntry)
    (h1 : collSum bi es ≠ 1) (h2 : collActive bi ai es = -1)
    (h3 : collSumOther bi ai es ≠ 0) :
    normalizeVertexEntries bi ai es
      = some ((clampEntries bi es).enum.map
          (fun p => if p.2.group ∈ bi
            then { p.2 with weight := p.2.weight / collSumOther bi ai es }
            else p.2)) := by
  unfold normalizeVertexEntries
  rw [if_pos h1, if_pos ⟨h2, h3⟩]
  congr 1
  rw [collIndexes_eq, collWeights_eq, List.map_map, List.zip_map']
  unfold collPairs
  rw [map_filter_eq_filterMap]
  rw [filterMap_congr_mem ((clampEntries bi es).enum)
    (g := fun p => (if p.2.group ∈ bi
      then some (p.2.weight / collSumOther bi ai es) else none).map
        (fun w => ((p.1 : Int), w)))
    (by intro p _; by_cases h : p.2.group ∈ bi <;> simp [h])]
  rw [writeWeights_enum_map]
  apply List.map_congr_left
  intro p _
  by_cases h : p.2.group ∈ bi <;> simp [h]

theorem entryWeightAt_clamped (bi : List Nat) (es : List GroupEntry) (k : Nat)
    (hk : k < es.length) (hgrp : (es.get ⟨k, hk⟩).group ∈ bi) :
    entryWeightAt (clampEntries bi es) k = clamp01 (es.get ⟨k, hk⟩).weight := by
  unfold entryWeightAt
  rw [List.getD_eq_getElem?_getD,
    List.getElem?_eq_getElem (by rw [clampEntries_length]; exact hk)]
  have := clampEntries_get bi es k hk
  rw [List.get_eq_getElem] at this
  simp only [Option.getD_some, this]
  rw [clampEntry_mem bi _ hgrp]

theorem NVE_caseC (bi : List Nat) (ai : Nat) (es : List GroupEntry)
    (h1 : collSum bi es ≠ 1)
    (k : Nat) (hk : k < es.length)
    (hgrp : (es.get ⟨k, hk⟩).group ∈ bi)
    (hcoll : collActive bi ai es = (k : Int))
    (hlt1 : ¬ (1 ≤ clamp01 (es.get ⟨k, hk⟩).weight))
    (h3 : collSumOther bi ai es ≠ 0) :
    normalizeVertexEntries bi ai es
      = some ((clampEntries bi es).enum.map
          (fun p => if p.2.group ∈ bi ∧ p.1 ≠ k
            then { p.2 with weight :=
              (1 - clamp01 (es.get ⟨k, hk⟩).weight)
                * (p.2.weight / collSumOther bi ai es) }
            else p.2)) := by
  obtain ⟨pos, hpos, hp, hpair⟩ := findIdx_active bi es k hk hgrp
  unfold normalizeVertexEntries
  rw [if_pos h1, hcoll]
  rw [if_neg (by rintro ⟨ha, _⟩; simp at ha)]
  rw [hpos]
  dsimp only
  have hgetD : (collWeights bi es).getD pos 0 = clamp01 (es.get ⟨k, hk⟩).weight := by
    rw [collWeights_getD_eq bi es pos hp, hpair]
    rw [clampEntry_mem bi _ hgrp]
  rw [hgetD, if_neg hlt1]
  rw [Int.toNat_natCast, entryWeightAt_clamped bi es k hk hgrp]
  rw [if_pos h3]
  congr 1
  rw [collIndexes_eq, collWeights_eq, List.zip_map']
  rw [List.filterMap_map]
  unfold collPairs
  rw [filterMap_filter]
  rw [filterMap_congr_mem ((clampEntries bi es).enum)
    (g := fun p => (if p.2.group ∈ bi ∧ p.1 ≠ k
      then some ((1 - clamp01 (es.get ⟨k, hk⟩).weight)
        * (p.2.weight / collSumOther bi ai es)) else none).map
        (fun w => ((p.1 : Int), w)))
    (by
      intro p _
      by_cases h : p.2.group ∈ bi
      · by_cases h2 : p.1 = k <;> simp [h, h2, Function.comp]
      · simp [h, Function.comp])]
  rw [writeWeights_enum_map]
  apply List.map_congr_left
  intro p _
  by_cases h : p.2.group ∈ bi
  · by_cases h2 : p.1 = k <;> simp [h, h2]
  · simp [h]

theorem NVE_caseB (bi : List Nat) (ai : Nat) (es : List GroupEntry)
    (h1 : collSum bi es ≠ 1)
    (k : Nat) (hk : k < es.length)
    (hgrp : (es.get ⟨k, hk⟩).group ∈ bi)
    (hcoll : collActive bi ai es = (k : Int))
    (hge1 : 1 ≤ clamp01 (es.get ⟨k, hk⟩).weight) :
    normalizeVertexEntries bi ai es
      = some ((clampEntries bi es).enum.map
          (fun p => if p.1 = k then { p.2 with weight := 1 }
            else if p.2.group ∈ bi then { p.2 with weight := 0 }
            else p.2)) := by
  obtain ⟨pos, hpos, hp, hpair⟩ := findIdx_active bi es k hk hgrp
  unfold normalizeVertexEntries
  rw [if_pos h1, hcoll]
  rw [if_neg (by rintro ⟨ha, _⟩; simp at ha)]
  rw [hpos]
  dsimp only
  have hgetD : (collWeights bi es).getD pos 0 = clamp01 (es.get ⟨k, hk⟩).weight := by
    rw [collWeights_getD_eq bi es pos hp, hpair]
    rw [clampEntry_mem bi _ hgrp]
  rw [hgetD, if_pos hge1]
  rw [Int.toNat_natCast]
  rw [collIndexes_eq, List.map_map]
  congr 1
  unfold collPairs
  rw [map_filter_eq_filterMap]
  rw [filterMap_congr_mem ((clampEntries bi es).enum)
    (g := fun p => (if p.2.group ∈ bi then some (0 : ℚ) else none).map
      (fun w => ((p.1 : Int), w)))
    (by intro p _; by_cases h : p.2.group ∈ bi <;> simp [h, Function.comp])]
  rw [writeWeights_enum_map]
  rw [setWeightAt_map_form _ k 1 0, ← List.enum_eq_enumFrom]
  rw [enum_map_pair, enum_enum, List.map_map, List.map_map]
  apply List.map_congr_left
  intro p _
  by_cases h2 : p.1 = k
  · by_cases h : p.2.group ∈ bi <;>
      simp [h, h2, Function.comp, Nat.zero_add]
  · by_cases h : p.2.group ∈ bi <;>
      simp [h, h2, Function.comp, Nat.zero_add]

theorem NVE_caseD (bi : List Nat) (ai : Nat) (es : List GroupEntry)
    (h1 : collSum bi es ≠ 1)
    (k : Nat) (hk : k < es.length)
    (hgrp : (es.get ⟨k, hk⟩).group ∈ bi)
    (hcoll : collActive bi ai es = (k : Int))
    (hlt1 : ¬ (1 ≤ clamp01 (es.get ⟨k, hk⟩).weight))
    (h3 : ¬ (collSumOther bi ai es ≠ 0))
    (h4 : collSum bi es ≠ 0 ∧ (collWeights bi es).length > 1) :
    normalizeVertexEntries bi ai es
      = some ((clampEntries bi es).enum.map
          (fun p => if p.2.group ∈ bi ∧ p.1 ≠ k
            then { p.2 with weight :=
              (1 - clamp01 (es.get ⟨k, hk⟩).weight)
                * (1 / ((collWeights bi es).length : ℚ)) }
            else p.2)) := by
  obtain ⟨pos, hpos, hp, hpair⟩ := findIdx_active bi es k hk hgrp
  unfold normalizeVertexEntries
  rw [if_pos h1, hcoll]
  rw [if_neg (by rintro ⟨ha, _⟩; simp at ha)]
  rw [hpos]
  dsimp only
  have hgetD : (collWeights bi es).getD pos 0 = clamp01 (es.get ⟨k, hk⟩).weight := by
    rw [collWeights_getD_eq bi es pos hp, hpair]
    rw [clampEntry_mem bi _ hgrp]
  rw [hgetD, if_neg hlt1]
  rw [Int.toNat_natCast, entryWeightAt_clamped bi es k hk hgrp]
  rw [if_neg h3, if_pos h4]
  congr 1
  rw [collIndexes_eq]
  rw [List.filterMap_map]
  unfold collPairs
  rw [filterMap_filter]
  rw [filterMap_congr_mem ((clampEntries bi es).enum)
    (g := fun p => (if p.2.group ∈ bi ∧ p.1 ≠ k
      then some ((1 - clamp01 (es.get ⟨k, hk⟩).weight)
        * (1 / ((collWeights bi es).length : ℚ))) else none).map
        (fun w => ((p.1 : Int), w)))
    (by
      intro p _
      by_cases h : p.2.group ∈ bi
      · by_cases h2 : p.1 = k <;> simp [h, h2, Function.comp]
      · simp [h, Function.comp])]
  rw [writeWeights_enum_map]
  apply List.map_congr_left
  intro p _
  by_cases h : p.2.group ∈ bi
  · by_cases h2 : p.1 = k <;> simp [h, h2]
  · simp [h]

theorem NVE_fallthrough (bi : List Nat) (ai : Nat) (es : List GroupEntry)
    (h1 : collSum bi es ≠ 1)
    (k : Nat) (hk : k < es.length)
    (hgrp : (es.get ⟨k, hk⟩).group ∈ bi)
    (hcoll : collActive bi ai es = (k : Int))
    (hlt1 : ¬ (1 ≤ clamp01 (es.get ⟨k, hk⟩).weight))
    (h3 : ¬ (collSumOther bi ai es ≠ 0))
    (h4 : ¬ (collSum bi es ≠ 0 ∧ (collWeights bi es).length > 1)) :
    normalizeVertexEntries bi ai es = some (clampEntries bi es) := by
  obtain ⟨pos, hpos, hp, hpair⟩ := findIdx_active bi es k hk hgrp
  unfold normalizeVertexEntries
  rw [if_pos h1, hcoll]
  rw [if_neg (by rintro ⟨ha, _⟩; simp at ha)]
  rw [hpos]
  dsimp only
  have hgetD : (collWeights bi es).getD pos 0 = clamp01 (es.get ⟨k, hk⟩).weight := by
    rw [collWeights_getD_eq bi es pos hp, hpair]
    rw [clampEntry_mem bi _ hgrp]
  rw [hgetD, if_neg hlt1]
  rw [if_neg h3, if_neg h4]

theorem NVE_none (bi : List Nat) (ai : Nat) (es : List GroupEntry)
    (h1 : collSum bi es ≠ 1)
    (h2 : collActive bi ai es = -1)
    (h3 : ¬ (collSumOther bi ai es ≠ 0)) :
    normalizeVertexEntries bi ai es = none := by
  unfold normalizeVertexEntries
  rw [if_pos h1]
  rw [if_neg (by rintro ⟨_, hb⟩; exact h3 hb)]
  rw [h2]
  have hnone : (collIndexes bi es).findIdx? (fun i => i == (-1 : Int)) = none := by
    rw [List.findIdx?_eq_none_iff]
    intro i hi
    rw [collIndexes_eq, List.mem_map] at hi
    obtain ⟨p, _, rfl⟩ := hi
    simp
  rw [hnone]

/-! ## Sums of the redistributed weights -/

theorem sum_map_div (l : List (Nat × GroupEntry)) (f : Nat × GroupEntry → ℚ) (c : ℚ) :
    (l.map (fun p => f p / c)).sum = (l.map f).sum / c := by
  induction l with
  | nil => simp
  | cons a t ih => simp [ih, add_div]

theorem sum_map_mul_left (l : List (Nat × GroupEntry)) (f : Nat × GroupEntry → ℚ) (c : ℚ) :
    (l.map (fun p => c * f p)).sum = c * (l.map f).sum := by
  induction l with
  | nil => simp
  | cons a t ih => simp [ih, mul_add]

theorem armSum_enum_map (bi : List Nat) (cl : List GroupEntry)
    (h : Nat × GroupEntry → GroupEntry)
    (hgrp : ∀ p ∈ cl.enum, (h p).group = p.2.group) :
    armSum bi (cl.enum.map h)
      = ((cl.enum.filter (fun p => p.2.group ∈ bi)).map (fun p => (h p).weight)).sum := by
  unfold armSum
  rw [List.filter_map]
  rw [List.filter_congr (fun p hp => by
    show decide ((h p).group ∈ bi) = decide (p.2.group ∈ bi)
    rw [hgrp p hp])]
  rw [List.map_map]
  rfl

theorem armSum_clamp (bi : List Nat) (es : List GroupEntry) :
    armSum bi (clampEntries bi es) = collSum bi es := rfl

/-- If no entry lies on the active group, `sum` and `sum_other` coincide. -/
theorem collSum_eq_sumOther_of_no_active (bi : List Nat) (ai : Nat) (es : List GroupEntry)
    (h2 : collActive bi ai es = -1) :
    collSum bi es = collSumOther bi ai es := by
  rw [collActive_eq_neg1_iff] at h2
  rw [collSum_eq, collSumOther_eq]
  unfold collPairs
  congr 2
  apply List.filter_congr
  intro p hp
  have hmem : p.2 ∈ clampEntries bi es := snd_mem_of_mem_enum hp
  unfold clampEntries at hmem
  rw [List.mem_map] at hmem
  obtain ⟨e, he, hpe⟩ := hmem
  have hgroup : p.2.group = e.group := by rw [← hpe, clampEntry_group]
  by_cases hb : p.2.group ∈ bi
  · have hne : p.2.group ≠ ai := by
      intro hai
      exact h2 e he ⟨by rw [← hgroup]; exact hb, by rw [← hgroup]; exact hai⟩
    simp [hb, hne]
  · simp [hb]

/-- Group indices are unique per vertex: positions with equal groups agree. -/
theorem nodup_group_inj (es : List GroupEntry)
    (hnd : (es.map (fun e => e.group)).Nodup)
    (j1 j2 : Nat) (h1 : j1 < es.length) (h2 : j2 < es.length)
    (heq : (es.get ⟨j1, h1⟩).group = (es.get ⟨j2, h2⟩).group) : j1 = j2 := by
  rw [List.nodup_iff_injective_get] at hnd
  have hlen : (es.map (fun e => e.group)).length = es.length := List.length_map _ _
  have hj1 : j1 < (es.map (fun e => e.group)).length := by omega
  have hj2 : j2 < (es.map (fun e => e.group)).length := by omega
  have hget : (es.map (fun e => e.group)).get ⟨j1, hj1⟩
      = (es.map (fun e => e.group)).get ⟨j2, hj2⟩ := by
    simp only [List.get_eq_getElem, List.getElem_map]
    rw [List.get_eq_getElem] at heq
    rw [List.get_eq_getElem] at heq
    exact heq
  have := hnd hget
  exact congrArg Fin.val this

theorem clampEntries_group_get (bi : List Nat) (es : List GroupEntry) (j : Nat)
    (hj : j < es.length) :
    ((clampEntries bi es).get ⟨j, by rw [clampEntries_length]; exact hj⟩).group
      = (es.get ⟨j, hj⟩).group := by
  rw [clampEntries_get]
  exact clampEntry_group _ _

theorem armSum_caseA_eq_one (bi : List Nat) (ai : Nat) (es : List GroupEntry)
    (h2 : collActive bi ai es = -1) (h3 : collSumOther bi ai es ≠ 0) :
    armSum bi ((clampEntries bi es).enum.map
      (fun p => if p.2.group ∈ bi
        then { p.2 with weight := p.2.weight / collSumOther bi ai es }
        else p.2)) = 1 := by
  rw [armSum_enum_map _ _ _
    (by intro p _; by_cases h : p.2.group ∈ bi <;> simp [h])]
  rw [List.map_congr_left
    (g := fun p => p.2.weight / collSumOther bi ai es)
    (by
      intro p hp
      rw [List.mem_filter] at hp
      have := hp.2
      simp only [decide_eq_true_eq] at this
      simp [this])]
  rw [sum_map_div]
  have : ((List.filter (fun p => decide (p.2.group ∈ bi)) (clampEntries bi es).enum).map
      (fun p => p.2.weight)).sum = collSum bi es := by
    rw [collSum_eq]
    rfl
  rw [this, collSum_eq_sumOther_of_no_active bi ai es h2, div_self h3]

theorem armSum_caseB_eq_one (bi : List Nat) (es : List GroupEntry)
    (k : Nat) (hk : k < es.length) (hgrp : (es.get ⟨k, hk⟩).group ∈ bi) :
    armSum bi ((clampEntries bi es).enum.map
      (fun p => if p.1 = k then { p.2 with weight := 1 }
        else if p.2.group ∈ bi then { p.2 with weight := 0 }
        else p.2)) = 1 := by
  rw [armSum_enum_map _ _ _
    (by
      intro p _
      by_cases h2 : p.1 = k
      · simp [h2]
      · by_cases h : p.2.group ∈ bi <;> simp [h, h2])]
  rw [sum_filter_split _ _ _ (fun p => p.1 = k)]
  have hq : (k, clampEntry bi (es.get ⟨k, hk⟩)) ∈ (clampEntries bi es).enum := by
    rw [mem_enum_iff]
    exact ⟨by rw [clampEntries_length]; exact hk, clampEntries_get bi es k hk⟩
  have hsing : (clampEntries bi es).enum.filter
      (fun p => decide (p.2.group ∈ bi) && decide (p.1 = k))
      = [(k, clampEntry bi (es.get ⟨k, hk⟩))] := by
    apply filter_eq_singleton _ _ _ (enum_nodup _) hq
    · show (decide ((clampEntry bi (es.get ⟨k, hk⟩)).group ∈ bi) && decide (k = k)) = true
      rw [clampEntry_group, Bool.and_eq_true]
      exact ⟨decide_eq_true hgrp, by simp⟩
    · intro y hy hpy
      simp only [Bool.and_eq_true, decide_eq_true_eq] at hpy
      obtain ⟨hlt, hget⟩ := mem_enum_iff.mp hy
      have h1 : y.1 = k := hpy.2
      refine Prod.ext h1 ?_
      dsimp only
      rw [← hget, ← clampEntries_get bi es k hk]
      congr 1
      exact Fin.ext h1
  rw [hsing]
  have hzero : ((List.filter
      (fun p => decide (p.2.group ∈ bi) && ! decide (p.1 = k))
      (clampEntries bi es).enum).map
        (fun p => (if p.1 = k then { p.2 with weight := 1 }
          else if p.2.group ∈ bi then { p.2 with weight := 0 }
          else p.2).weight)).sum = 0 := by
    apply List.sum_eq_zero
    intro x hx
    rw [List.mem_map] at hx
    obtain ⟨p, hp, rfl⟩ := hx
    rw [List.mem_filter] at hp
    have hcond := hp.2
    simp only [Bool.and_eq_true, Bool.not_eq_eq_eq_not, Bool.not_true,
      decide_eq_true_eq, decide_eq_false_iff_not] at hcond
    rw [if_neg hcond.2, if_pos hcond.1]
  rw [hzero]
  simp


theorem armSum_caseC_eq_one (bi : List Nat) (ai : Nat) (es : List GroupEntry)
    (k : Nat) (hk : k < es.length)
    (hnd : (es.map (fun e => e.group)).Nodup)
    (hgrp : (es.get ⟨k, hk⟩).group ∈ bi)
    (hact : (es.get ⟨k, hk⟩).group = ai)
    (h3 : collSumOther bi ai es ≠ 0) :
    armSum bi ((clampEntries bi es).enum.map
      (fun p => if p.2.group ∈ bi ∧ p.1 ≠ k
        then { p.2 with weight := (1 - clamp01 (es.get ⟨k, hk⟩).weight)
          * (p.2.weight / collSumOther bi ai es) }
        else p.2)) = 1 := by
  rw [armSum_enum_map _ _ _
    (by
      intro p _
      by_cases h : p.2.group ∈ bi ∧ p.1 ≠ k <;> simp [h])]
  rw [sum_filter_split _ _ _ (fun p => p.1 = k)]
  have hq : (k, clampEntry bi (es.get ⟨k, hk⟩)) ∈ (clampEntries bi es).enum := by
    rw [mem_enum_iff]
    exact ⟨by rw [clampEntries_length]; exact hk, clampEntries_get bi es k hk⟩
  have hsing : (clampEntries bi es).enum.filter
      (fun p => decide (p.2.group ∈ bi) && decide (p.1 = k))
      = [(k, clampEntry bi (es.get ⟨k, hk⟩))] := by
    apply filter_eq_singleton _ _ _ (enum_nodup _) hq
    · show (decide ((clampEntry bi (es.get ⟨k, hk⟩)).group ∈ bi) && decide (k = k)) = true
      rw [clampEntry_group, Bool.and_eq_true]
      exact ⟨decide_eq_true hgrp, by simp⟩
    · intro y hy hpy
      simp only [Bool.and_eq_true, decide_eq_true_eq] at hpy
      obtain ⟨hlt, hget⟩ := mem_enum_iff.mp hy
      refine Prod.ext hpy.2 ?_
      dsimp only
      rw [← hget, ← clampEntries_get bi es k hk]
      congr 1
      exact Fin.ext hpy.2
  rw [hsing]
  rw [List.map_cons, List.map_nil, List.sum_cons, List.sum_nil]
  rw [if_neg (by simp)]
  have hw : (k, clampEntry bi (es.get ⟨k, hk⟩)).2.weight
      = clamp01 (es.get ⟨k, hk⟩).weight := by
    dsimp only
    rw [clampEntry_mem bi _ hgrp]
  rw [hw]
  have hfilt : (clampEntries bi es).enum.filter
      (fun p => decide (p.2.group ∈ bi) && ! decide (p.1 = k))
      = (clampEntries bi es).enum.filter
          (fun p => decide (p.2.group ∈ bi ∧ p.2.group ≠ ai)) := by
    apply List.filter_congr
    intro p hp
    obtain ⟨hlt, hget⟩ := mem_enum_iff.mp hp
    have hlt2 : p.1 < es.length := by
      rw [clampEntries_length] at hlt
      exact hlt
    have hgroup : p.2.group = (es.get ⟨p.1, hlt2⟩).group := by
      rw [← hget]
      exact clampEntries_group_get bi es p.1 hlt2
    by_cases hb : p.2.group ∈ bi
    · by_cases h2 : p.1 = k
      · have hai : p.2.group = ai := by
          rw [hgroup, ← hact]
          simp only [List.get_eq_getElem, h2]
        simp [hb, h2, hai]
      · have hai : p.2.group ≠ ai := by
          rw [hgroup]
          intro hai
          exact h2 (nodup_group_inj es hnd p.1 k hlt2 hk (by rw [hai, hact]))
        simp [hb, h2, hai]
    · simp [hb]
  rw [hfilt]
  rw [List.map_congr_left
    (g := fun p => (1 - clamp01 (es.get ⟨k, hk⟩).weight)
      * (p.2.weight / collSumOther bi ai es))
    (by
      intro p hp
      rw [List.mem_filter] at hp
      have hcond := hp.2
      simp only [decide_eq_true_eq] at hcond
      have hne : p.1 ≠ k := by
        intro hkk
        obtain ⟨hlt, hget⟩ := mem_enum_iff.mp hp.1
        have hlt2 : p.1 < es.length := by
          rw [clampEntries_length] at hlt
          exact hlt
        apply hcond.2
        rw [← hget, clampEntries_group_get bi es p.1 hlt2, ← hact]
        simp only [List.get_eq_getElem, hkk]
      simp [hcond.1, hne])]
  rw [sum_map_mul_left, sum_map_div]
  have hso : ((List.filter (fun p => decide (p.2.group ∈ bi ∧ p.2.group ≠ ai))
      (clampEntries bi es).enum).map (fun p => p.2.weight)).sum
      = collSumOther bi ai es := (collSumOther_eq bi ai es).symm
  rw [hso, div_self h3]
  ring

/-! ## Main per-vertex lemmas -/

/-- Under the data-model invariant (unique group per vertex) and with an
entry on the active group present, the per-vertex algorithm succeeds and
the armature-group weights sum to exactly 1 — except in the situation
where the active weight is below 1 and every other collected weight
clamps to zero. -/
theorem NVE_sum_one (bi : List Nat) (ai : Nat) (es : List GroupEntry)
    (hnd : (es.map (fun e => e.group)).Nodup)
    (hex : ∃ e ∈ es, e.group ∈ bi ∧ e.group = ai)
    (hE : collSumOther bi ai es ≠ 0 ∨ ∃ e ∈ es, e.group = ai ∧ 1 ≤ e.weight) :
    ∃ es', normalizeVertexEntries bi ai es = some es' ∧ armSum bi es' = 1 := by
  have hne := collActive_ne_neg1 bi ai es hex
  obtain ⟨k, hk, hcoll, hgrp, hact⟩ := collActive_spec bi ai es hne
  by_cases hs : collSum bi es = 1
  · exact ⟨_, NVE_skip bi ai es hs, by rw [armSum_clamp]; exact hs⟩
  · by_cases hge : 1 ≤ clamp01 (es.get ⟨k, hk⟩).weight
    · exact ⟨_, NVE_caseB bi ai es hs k hk hgrp hcoll hge,
        armSum_caseB_eq_one bi es k hk hgrp⟩
    · have h3 : collSumOther bi ai es ≠ 0 := by
        rcases hE with h | ⟨e, he, hea, hew⟩
        · exact h
        · exfalso
          apply hge
          obtain ⟨p, hp, rfl⟩ := exists_enum_of_mem he
          obtain ⟨hj, hgetj⟩ := mem_enum_iff.mp hp
          have hpk : p.1 = k :=
            nodup_group_inj es hnd p.1 k hj hk (by rw [hgetj, hea, hact])
          have hgetk : es.get ⟨k, hk⟩ = p.2 := by
            rw [← hgetj]
            simp only [List.get_eq_getElem, hpk]
          rw [one_le_clamp01_iff, hgetk]
          exact hew
      exact ⟨_, NVE_caseC bi ai es hs k hk hgrp hcoll hge h3,
        armSum_caseC_eq_one bi ai es k hk hnd hgrp hact h3⟩

/-- With an entry on the active group present, the `indexes.index`
lookup cannot raise: every branch of the per-vertex algorithm returns. -/
theorem NVE_isSome (bi : List Nat) (ai : Nat) (es : List GroupEntry)
    (hex : ∃ e ∈ es, e.group ∈ bi ∧ e.group = ai) :
    (normalizeVertexEntries bi ai es).isSome := by
  have hne := collActive_ne_neg1 bi ai es hex
  obtain ⟨k, hk, hcoll, hgrp, hact⟩ := collActive_spec bi ai es hne
  by_cases hs : collSum bi es = 1
  · rw [NVE_skip bi ai es hs]; rfl
  · by_cases hge : 1 ≤ clamp01 (es.get ⟨k, hk⟩).weight
    · rw [NVE_caseB bi ai es hs k hk hgrp hcoll hge]; rfl
    · by_cases h3 : collSumOther bi ai es ≠ 0
      · rw [NVE_caseC bi ai es hs k hk hgrp hcoll hge h3]; rfl
      · by_cases h4 : collSum bi es ≠ 0 ∧ (collWeights bi es).length > 1
        · rw [NVE_caseD bi ai es hs k hk hgrp hcoll hge h3 h4]; rfl
        · rw [NVE_fallthrough bi ai es hs k hk hgrp hcoll hge h3 h4]; rfl

theorem enum_map_getElem? (cl : List GroupEntry) (h : Nat × GroupEntry → GroupEntry)
    (j : Nat) (hj : j < cl.length) :
    (cl.enum.map h)[j]? = some (h (j, cl.get ⟨j, hj⟩)) := by
  rw [List.getElem?_map, List.enum_eq_enumFrom, List.getElem?_enumFrom,
    List.getElem?_eq_getElem hj]
  simp [List.get_eq_getElem]

theorem shape_of_enum_map (bi : List Nat) (es : List GroupEntry)
    (h : Nat × GroupEntry → GroupEntry)
    (hgr : ∀ p ∈ (clampEntries bi es).enum, (h p).group = p.2.group)
    (hid : ∀ p ∈ (clampEntries bi es).enum, p.2.group ∉ bi → h p = p.2) :
    ((clampEntries bi es).enum.map h).length = es.length
    ∧ ∀ j (hj : j < es.length), ∃ e',
        ((clampEntries bi es).enum.map h)[j]? = some e'
        ∧ e'.group = (es.get ⟨j, hj⟩).group
        ∧ ((es.get ⟨j, hj⟩).group ∉ bi → e' = es.get ⟨j, hj⟩) := by
  constructor
  · rw [List.length_map, List.enum_length, clampEntries_length]
  · intro j hj
    have hjc : j < (clampEntries bi es).length := by
      rw [clampEntries_length]
      exact hj
    have hmem : (j, (clampEntries bi es).get ⟨j, hjc⟩) ∈ (clampEntries bi es).enum := by
      rw [mem_enum_iff]
      exact ⟨hjc, rfl⟩
    refine ⟨h (j, (clampEntries bi es).get ⟨j, hjc⟩), enum_map_getElem? _ h j hjc, ?_, ?_⟩
    · rw [hgr _ hmem]
      dsimp only
      exact clampEntries_group_get bi es j hj
    · intro hnb
      have hgj : ((clampEntries bi es).get ⟨j, hjc⟩).group = (es.get ⟨j, hj⟩).group :=
        clampEntries_group_get bi es j hj
      rw [hid _ hmem (by rw [hgj]; exact hnb)]
      dsimp only
      rw [clampEntries_get bi es j hj]
      exact clampEntry_not_mem bi _ hnb

theorem shape_of_clampEntries (bi : List Nat) (es : List GroupEntry) :
    (clampEntries bi es).length = es.length
    ∧ ∀ j (hj : j < es.length), ∃ e',
        (clampEntries bi es)[j]? = some e'
        ∧ e'.group = (es.get ⟨j, hj⟩).group
        ∧ ((es.get ⟨j, hj⟩).group ∉ bi → e' = es.get ⟨j, hj⟩) := by
  refine ⟨clampEntries_length bi es, ?_⟩
  intro j hj
  have hjc : j < (clampEntries bi es).length := by
    rw [clampEntries_length]
    exact hj
  refine ⟨clampEntry bi (es.get ⟨j, hj⟩), ?_, clampEntry_group bi _, ?_⟩
  · rw [List.getElem?_eq_getElem hjc]
    have := clampEntries_get bi es j hj
    rw [List.get_eq_getElem] at this
    rw [this]
  · intro hnb
    exact clampEntry_not_mem bi _ hnb

/-- Every successful run of the per-vertex algorithm keeps the entry list
length, keeps every entry's group, and leaves entries on non-armature
groups entirely untouched. -/
theorem NVE_shape (bi : List Nat) (ai : Nat) (es es' : List GroupEntry)
    (h : normalizeVertexEntries bi ai es = some es') :
    es'.length = es.length
    ∧ ∀ j (hj : j < es.length), ∃ e',
        es'[j]? = some e'
        ∧ e'.group = (es.get ⟨j, hj⟩).group
        ∧ ((es.get ⟨j, hj⟩).group ∉ bi → e' = es.get ⟨j, hj⟩) := by
  by_cases hs : collSum bi es = 1
  · rw [NVE_skip bi ai es hs] at h
    obtain rfl := Option.some.inj h
    exact shape_of_clampEntries bi es
  · by_cases hactive : collActive bi ai es = -1
    · by_cases h3 : collSumOther bi ai es ≠ 0
      · rw [NVE_caseA bi ai es hs hactive h3] at h
        obtain rfl := Option.some.inj h
        apply shape_of_enum_map
        · intro p _
          by_cases hb : p.2.group ∈ bi <;> simp [hb]
        · intro p _ hnb
          rw [if_neg hnb]
      · rw [NVE_none bi ai es hs hactive h3] at h
        cases h
    · obtain ⟨k, hk, hcoll, hgrp, hact⟩ := collActive_spec bi ai es hactive
      by_cases hge : 1 ≤ clamp01 (es.get ⟨k, hk⟩).weight
      · rw [NVE_caseB bi ai es hs k hk hgrp hcoll hge] at h
        obtain rfl := Option.some.inj h
        apply shape_of_enum_map
        · intro p _
          by_cases h1 : p.1 = k
          · simp [h1]
          · by_cases hb : p.2.group ∈ bi <;> simp [h1, hb]
        · intro p hp hnb
          have h1 : p.1 ≠ k := by
            intro hkk
            obtain ⟨hlt, hget⟩ := mem_enum_iff.mp hp
            have hlt2 : p.1 < es.length := by
              rw [clampEntries_length] at hlt
              exact hlt
            apply hnb
            rw [← hget, clampEntries_group_get bi es p.1 hlt2]
            have : (es.get ⟨p.1, hlt2⟩).group = (es.get ⟨k, hk⟩).group := by
              simp only [List.get_eq_getElem, hkk]
            rw [this]
            exact hgrp
          rw [if_neg h1, if_neg hnb]
      · by_cases h3 : collSumOther bi ai es ≠ 0
        · rw [NVE_caseC bi ai es hs k hk hgrp hcoll hge h3] at h
          obtain rfl := Option.some.inj h
          apply shape_of_enum_map
          · intro p _
            by_cases hb : p.2.group ∈ bi ∧ p.1 ≠ k <;> simp [hb]
          · intro p _ hnb
            rw [if_neg (by rintro ⟨hb, _⟩; exact hnb hb)]
        · by_cases h4 : collSum bi es ≠ 0 ∧ (collWeights bi es).length > 1
          · rw [NVE_caseD bi ai es hs k hk hgrp hcoll hge h3 h4] at h
            obtain rfl := Option.some.inj h
            apply shape_of_enum_map
            · intro p _
              by_cases hb : p.2.group ∈ bi ∧ p.1 ≠ k <;> simp [hb]
            · intro p _ hnb
              rw [if_neg (by rintro ⟨hb, _⟩; exact hnb hb)]
          · rw [NVE_fallthrough bi ai es hs k hk hgrp hcoll hge h3 h4] at h
            obtain rfl := Option.some.inj h
            exact shape_of_clampEntries bi es

/-! ## Characterizing the Membership Guarantor -/

theorem assignStep_vertices (w : ℚ) (o : Obj) (st : Nat × List Nat) :
    (assignStep w o st).mesh.vertices
      = o.mesh.vertices.map (assignStepVertex w st) := by
  unfold assignStep vertex_group_assign select_verts deselect_all assignStepVertex
  dsimp only
  rw [List.map_map, List.map_map]
  apply List.map_congr_left
  intro v _
  by_cases h : v.index ∈ st.2 <;> simp [Function.comp, h]

theorem assignStep_mode (w : ℚ) (o : Obj) (st : Nat × List Nat) :
    (assignStep w o st).mode = o.mode := rfl

theorem assignStep_vertex_groups (w : ℚ) (o : Obj) (st : Nat × List Nat) :
    (assignStep w o st).vertex_groups = o.vertex_groups := rfl

theorem assignStep_modifiers (w : ℚ) (o : Obj) (st : Nat × List Nat) :
    (assignStep w o st).modifiers = o.modifiers := rfl

theorem foldl_assignStep_vertices (w : ℚ) :
    ∀ (steps : List (Nat × List Nat)) (o : Obj),
      (steps.foldl (assignStep w) o).mesh.vertices
        = o.mesh.vertices.map
            (fun v => steps.foldl (fun v st => assignStepVertex w st v) v)
  | [], o => by simp
  | st :: steps, o => by
    rw [List.foldl_cons, foldl_assignStep_vertices w steps (assignStep w o st)]
    rw [assignStep_vertices, List.map_map]
    rfl

theorem foldl_assignStep_mode (w : ℚ) :
    ∀ (steps : List (Nat × List Nat)) (o : Obj),
      (steps.foldl (assignStep w) o).mode = o.mode
  | [], _ => rfl
  | st :: steps, o => by
    rw [List.foldl_cons, foldl_assignStep_mode w steps (assignStep w o st),
      assignStep_mode]

theorem foldl_assignStep_vertex_groups (w : ℚ) :
    ∀ (steps : List (Nat × List Nat)) (o : Obj),
      (steps.foldl (assignStep w) o).vertex_groups = o.vertex_groups
  | [], _ => rfl
  | st :: steps, o => by
    rw [List.foldl_cons, foldl_assignStep_vertex_groups w steps (assignStep w o st),
      assignStep_vertex_groups]

theorem foldl_assignStep_modifiers (w : ℚ) :
    ∀ (steps : List (Nat × List Nat)) (o : Obj),
      (steps.foldl (assignStep w) o).modifiers = o.modifiers
  | [], _ => rfl
  | st :: steps, o => by
    rw [List.foldl_cons, foldl_assignStep_modifiers w steps (assignStep w o st),
      assignStep_modifiers]

theorem assignStepVertex_index (w : ℚ) (st : Nat × List Nat) (v : Vertex) :
    (assignStepVertex w st v).index = v.index := by
  unfold assignStepVertex assignVertex
  dsimp only
  split
  · split <;> rfl
  · rfl

theorem foldl_assignStepVertex_index (w : ℚ) :
    ∀ (steps : List (Nat × List Nat)) (v : Vertex),
      (steps.foldl (fun v st => assignStepVertex w st v) v).index = v.index
  | [], _ => rfl
  | st :: steps, v => by
    rw [List.foldl_cons, foldl_assignStepVertex_index w steps _,
      assignStepVertex_index]

/-- `not_found` membership for the vertex at position `i`, assuming vertex
indices are coherent: the vertex is listed exactly when it lacks the group. -/
theorem mem_not_found_iff (m : Mesh) (hco : IndexCoherent m) (gi : Nat)
    (i : Nat) (hi : i < m.vertices.length) :
    ((m.vertices.get ⟨i, hi⟩).index ∈ not_found_of m gi)
      ↔ ¬ (m.vertices.get ⟨i, hi⟩).groups.any (fun e => e.group = gi) := by
  unfold not_found_of
  constructor
  · intro h
    rw [List.mem_map] at h
    obtain ⟨u, hu, hidx⟩ := h
    rw [List.mem_filter] at hu
    obtain ⟨j, hgetj⟩ := List.mem_iff_get.mp hu.1
    have hji : j.1 = i := by
      have h1 : u.index = j.1 := by
        rw [← hgetj]
        exact hco j.1 j.2
      have h2 : (m.vertices.get ⟨i, hi⟩).index = i := hco i hi
      omega
    have huv : u = m.vertices.get ⟨i, hi⟩ := by
      rw [← hgetj]
      congr 1
      exact Fin.ext hji
    rw [← huv]
    have := hu.2
    simpa using this
  · intro h
    rw [List.mem_map]
    refine ⟨m.vertices.get ⟨i, hi⟩, ?_, rfl⟩
    rw [List.mem_filter]
    exact ⟨List.get_mem _ _ hi, by simpa using h⟩

theorem foldl_assignStepVertex_groups (w : ℚ) :
    ∀ (G : List Nat) (nfOf : Nat → List Nat) (v : Vertex),
      G.Nodup →
      (∀ g ∈ G, (v.index ∈ nfOf g ↔ ¬ v.groups.any (fun e => e.group = g))) →
      ((G.map (fun g => (g, nfOf g))).foldl (fun v st => assignStepVertex w st v) v).groups
        = v.groups
          ++ (G.filter (fun g => ¬ v.groups.any (fun e => e.group = g))).map
              (fun g => ⟨g, w⟩)
  | [], _, v, _, _ => by simp
  | g :: G, nfOf, v, hnd, hiff => by
    rw [List.map_cons, List.foldl_cons, List.filter_cons]
    have hiffg := hiff g (List.mem_cons_self g G)
    by_cases hany : v.groups.any (fun e => e.group = g)
    · have hnin : ¬ v.index ∈ nfOf g := fun hin => (hiffg.mp hin) hany
      have hstep : assignStepVertex w (g, nfOf g) v = { v with select := false } := by
        unfold assignStepVertex assignVertex
        dsimp only
        rw [decide_eq_false hnin]
        rfl
      rw [hstep]
      rw [if_neg (by simpa using hany)]
      exact foldl_assignStepVertex_groups w G nfOf _ (List.nodup_cons.mp hnd).2
        (fun g' hg' => hiff g' (List.mem_cons_of_mem g hg'))
    · have hin : v.index ∈ nfOf g := hiffg.mpr (by simpa using hany)
      have hstep : assignStepVertex w (g, nfOf g) v
          = { v with select := true, groups := v.groups ++ [⟨g, w⟩] } := by
        unfold assignStepVertex assignVertex
        dsimp only
        rw [decide_eq_true hin]
        rw [if_pos rfl, if_neg (by simpa using hany)]
      rw [hstep]
      rw [if_pos (by simpa using hany)]
      have hrec := foldl_assignStepVertex_groups w G nfOf
        { v with select := true, groups := v.groups ++ [⟨g, w⟩] }
        (List.nodup_cons.mp hnd).2
        (by
          intro g' hg'
          have hne : g' ≠ g := by
            intro hgg
            exact (List.nodup_cons.mp hnd).1 (hgg ▸ hg')
          have hanyeq : ({ v with select := true, groups := v.groups ++ [⟨g, w⟩] }
              : Vertex).groups.any (fun e => e.group = g')
              = v.groups.any (fun e => e.group = g') := by
            dsimp only
            rw [List.any_append]
            simp [hne.symm]
          rw [hanyeq]
          exact hiff g' (List.mem_cons_of_mem g hg'))
      rw [hrec]
      dsimp only
      rw [List.append_assoc, List.singleton_append, List.map_cons]
      congr 2
      exact congrArg (List.map (fun g => ({ group := g, weight := w } : GroupEntry)))
        (List.filter_congr (fun g' hg' => by
          have hne : g' ≠ g := by
            intro hgg
            exact (List.nodup_cons.mp hnd).1 (hgg ▸ hg')
          rw [List.any_append]
          simp [hne.symm]))

theorem assign_all_groups_vertices_eq (ctx : Context) (G : List Nat) :
    (assign_all_groups ctx G).obj.mesh.vertices
      = ctx.obj.mesh.vertices.map (fun v =>
          (G.map (fun g => (g, not_found_of ctx.obj.mesh g))).foldl
            (fun v st => assignStepVertex 0 st v) v) := by
  unfold assign_all_groups
  dsimp only
  unfold not_found_list
  rw [zip_self_map]
  rw [foldl_assignStep_vertices]

theorem assign_all_groups_length (ctx : Context) (G : List Nat) :
    (assign_all_groups ctx G).obj.mesh.vertices.length
      = ctx.obj.mesh.vertices.length := by
  rw [assign_all_groups_vertices_eq, List.length_map]

theorem assign_all_groups_active (ctx : Context) (G : List Nat) :
    (assign_all_groups ctx G).obj.active_index = ctx.obj.active_index := rfl

theorem assign_all_groups_tool (ctx : Context) (G : List Nat) :
    (assign_all_groups ctx G).tool.vertex_group_weight
      = ctx.tool.vertex_group_weight := rfl

theorem assign_all_groups_mode (ctx : Context) (G : List Nat) :
    (assign_all_groups ctx G).obj.mode
      = restore_mode (contextMode ctx.obj.mode) := rfl

theorem assign_all_groups_vertex_groups (ctx : Context) (G : List Nat) :
    (assign_all_groups ctx G).obj.vertex_groups = ctx.obj.vertex_groups := by
  unfold assign_all_groups
  dsimp only
  rw [foldl_assignStep_vertex_groups]

theorem assign_all_groups_modifiers (ctx : Context) (G : List Nat) :
    (assign_all_groups ctx G).obj.modifiers = ctx.obj.modifiers := by
  unfold assign_all_groups
  dsimp only
  rw [foldl_assignStep_modifiers]

/-- Pointwise characterization of the Guarantor: each vertex keeps its
index and its entry list becomes `assignedGroups G` of the old one. -/
theorem assign_all_groups_char (ctx : Context) (G : List Nat)
    (hco : IndexCoherent ctx.obj.mesh) (hnd : G.Nodup)
    (i : Nat) (hi : i < ctx.obj.mesh.vertices.length) :
    ∃ v', (assign_all_groups ctx G).obj.mesh.vertices[i]? = some v'
      ∧ v'.index = (ctx.obj.mesh.vertices.get ⟨i, hi⟩).index
      ∧ v'.groups = assignedGroups G (ctx.obj.mesh.vertices.get ⟨i, hi⟩).groups := by
  rw [assign_all_groups_vertices_eq]
  rw [List.getElem?_map, List.getElem?_eq_getElem hi]
  refine ⟨_, rfl, ?_, ?_⟩
  · simp only [List.get_eq_getElem]
    exact foldl_assignStepVertex_index 0 _ _
  · simp only [List.get_eq_getElem]
    rw [foldl_assignStepVertex_groups 0 G (not_found_of ctx.obj.mesh)
      (ctx.obj.mesh.vertices[i]) hnd
      (fun g _ => by
        have h := mem_not_found_iff ctx.obj.mesh hco g i hi
        simpa [List.get_eq_getElem] using h)]
    rfl

/-! ## The armature scan -/

theorem scanModifiers_no_qual :
    ∀ (mods : List Modifier) (bones : List String) (n : Nat),
      mods.filter qualifies = [] → scanModifiers mods bones n = (bones, n)
  | [], _, _, _ => rfl
  | m :: mods, bones, n, h => by
    rw [List.filter_cons] at h
    by_cases hq : qualifies m
    · rw [if_pos hq] at h
      cases h
    · rw [if_neg hq] at h
      unfold scanModifiers
      rw [if_neg (by simpa using hq)]
      exact scanModifiers_no_qual mods bones n h

theorem scanModifiers_second :
    ∀ (mods : List Modifier) (bones : List String) (m2 : Modifier) (rest : List Modifier),
      mods.filter qualifies = m2 :: rest →
      scanModifiers mods bones 1 = (modBones m2, 2)
  | [], _, _, _, h => by cases h
  | m :: mods, bones, m2, rest, h => by
    rw [List.filter_cons] at h
    by_cases hq : qualifies m
    · rw [if_pos hq] at h
      obtain ⟨rfl, _⟩ : m = m2 ∧ mods.filter qualifies = rest := by
        injection h with h1 h2
        exact ⟨h1, h2⟩
      unfold scanModifiers
      rw [if_pos (by simpa using hq)]
      rfl
    · rw [if_neg hq] at h
      unfold scanModifiers
      rw [if_neg (by simpa using hq)]
      exact scanModifiers_second mods bones m2 rest h

theorem scanModifiers_one (mods : List Modifier) (bones : List String) (m1 : Modifier)
    (h : mods.filter qualifies = [m1]) :
    scanModifiers mods bones 0 = (modBones m1, 1) := by
  induction mods generalizing bones with
  | nil => cases h
  | cons m mods ih =>
    rw [List.filter_cons] at h
    by_cases hq : qualifies m
    · rw [if_pos hq] at h
      obtain ⟨rfl, hrest⟩ : m = m1 ∧ mods.filter qualifies = [] := by
        injection h with h1 h2
        exact ⟨h1, h2⟩
      unfold scanModifiers
      rw [if_pos (by simpa using hq)]
      rw [if_neg (by omega)]
      exact scanModifiers_no_qual mods (modBones m) 1 hrest
    · rw [if_neg hq] at h
      unfold scanModifiers
      rw [if_neg (by simpa using hq)]
      exact ih bones h

theorem scanModifiers_two (mods : List Modifier) (bones : List String)
    (m1 m2 : Modifier) (rest : List Modifier)
    (h : mods.filter qualifies = m1 :: m2 :: rest) :
    scanModifiers mods bones 0 = (modBones m2, 2) := by
  induction mods generalizing bones with
  | nil => cases h
  | cons m mods ih =>
    rw [List.filter_cons] at h
    by_cases hq : qualifies m
    · rw [if_pos hq] at h
      obtain ⟨rfl, hrest⟩ : m = m1 ∧ mods.filter qualifies = m2 :: rest := by
        injection h with h1 h2
        exact ⟨h1, h2⟩
      unfold scanModifiers
      rw [if_pos (by simpa using hq)]
      rw [if_neg (by omega)]
      exact scanModifiers_second mods (modBones m) m2 rest hrest
    · rw [if_neg hq] at h
      unfold scanModifiers
      rw [if_neg (by simpa using hq)]
      exact ih bones h

/-! ## Top-level success-path characterization -/

theorem mapM_option_char {α β : Type} (f : α → Option β) :
    ∀ (l : List α), (∀ a ∈ l, (f a).isSome) →
      ∃ l', l.mapM f = some l' ∧ l'.length = l.length
        ∧ ∀ i (hi : i < l.length), ∃ b, l'[i]? = some b ∧ f (l.get ⟨i, hi⟩) = some b
  | [], _ => ⟨[], rfl, rfl, fun i hi => by cases hi⟩
  | a :: t, h => by
    obtain ⟨b, hb⟩ := Option.isSome_iff_exists.mp (h a (List.mem_cons_self a t))
    obtain ⟨l', hl', hlen, hidx⟩ :=
      mapM_option_char f t (fun x hx => h x (List.mem_cons_of_mem a hx))
    refine ⟨b :: l', ?_, by simp [hlen], ?_⟩
    · rw [List.mapM_cons, hb, hl']
      rfl
    · intro i hi
      match i with
      | 0 => exact ⟨b, by simp, hb⟩
      | j + 1 =>
        obtain ⟨b', hb'1, hb'2⟩ := hidx j (by simpa using hi)
        exact ⟨b', by simpa using hb'1, hb'2⟩

theorem active_mem_boneIndexes (groups : List VertexGroup) (bones : List String)
    (ai : Nat) (grp : VertexGroup)
    (hget : groups.get? ai = some grp) (hname : grp.name ∈ bones) :
    ai ∈ boneIndexes groups bones := by
  unfold boneIndexes
  rw [List.mem_map]
  refine ⟨(ai, grp), ?_, rfl⟩
  rw [List.mem_filter]
  constructor
  · rw [mem_enum_iff]
    dsimp only
    rw [List.get?_eq_getElem?] at hget
    have hlt : ai < groups.length := by
      by_contra hge
      rw [List.getElem?_eq_none (by omega)] at hget
      cases hget
    refine ⟨hlt, ?_⟩
    rw [List.getElem?_eq_getElem hlt] at hget
    rw [List.get_eq_getElem]
    exact Option.some.inj hget
  · simpa using hname

theorem assignedGroups_active_mem (G : List Nat) (es : List GroupEntry) (ai : Nat)
    (hai : ai ∈ G) :
    ∃ e ∈ assignedGroups G es, e.group ∈ G ∧ e.group = ai := by
  unfold assignedGroups
  by_cases h : es.any (fun e => e.group = ai)
  · rw [List.any_eq_true] at h
    obtain ⟨e, he, heq⟩ := h
    simp only [decide_eq_true_eq] at heq
    exact ⟨e, List.mem_append_left _ he, by rw [heq]; exact hai, heq⟩
  · refine ⟨⟨ai, 0⟩, List.mem_append_right _ ?_, hai, rfl⟩
    rw [List.mem_map]
    refine ⟨ai, ?_, rfl⟩
    rw [List.mem_filter]
    exact ⟨hai, by simpa using h⟩

theorem boneIndexes_nodup (groups : List VertexGroup) (bones : List String) :
    (boneIndexes groups bones).Nodup := by
  unfold boneIndexes
  have hsub : List.Sublist (groups.enum.filter (fun p => p.2.name ∈ bones)) groups.enum :=
    List.filter_sublist _
  have := (List.nodup_enum_map_fst groups).sublist (hsub.map Prod.fst)
  exact this

/-- Success path of `normalize_armature`: when an armature is found and
the active group's name is one of its bones, the operation finishes,
reports at most the multiple-armatures warning, and rewrites every vertex
by the per-vertex algorithm applied after the Guarantor. -/
theorem normalize_armature_success (ctx : Context)
    (hco : IndexCoherent ctx.obj.mesh)
    (hb : bonesOf ctx ≠ [])
    (grp : VertexGroup)
    (hget : ctx.obj.vertex_groups.get? ctx.obj.active_index = some grp)
    (hname : grp.name ∈ bonesOf ctx) :
    ∃ out, normalize_armature ctx = some out
      ∧ out.status = "FINISHED"
      ∧ out.reports = (if armaturesOf ctx > 1 then [("WARNING", msgMultiple)] else [])
      ∧ out.ctx.obj.mesh.vertices.length = ctx.obj.mesh.vertices.length
      ∧ ∀ i (hi : i < ctx.obj.mesh.vertices.length), ∃ v' es',
          out.ctx.obj.mesh.vertices[i]? = some v'
          ∧ v'.index = (ctx.obj.mesh.vertices.get ⟨i, hi⟩).index
          ∧ normalizeVertexEntries
              (boneIndexes ctx.obj.vertex_groups (bonesOf ctx))
              ctx.obj.active_index
              (assignedGroups (boneIndexes ctx.obj.vertex_groups (bonesOf ctx))
                (ctx.obj.mesh.vertices.get ⟨i, hi⟩).groups) = some es'
          ∧ v'.groups = es' := by
  have hai_bi : ctx.obj.active_index ∈ boneIndexes ctx.obj.vertex_groups (bonesOf ctx) :=
    active_mem_boneIndexes _ _ _ grp hget hname
  have hnd_bi : (boneIndexes ctx.obj.vertex_groups (bonesOf ctx)).Nodup :=
    boneIndexes_nodup _ _
  have hlen1 : (assign_all_groups ctx
      (boneIndexes ctx.obj.vertex_groups (bonesOf ctx))).obj.mesh.vertices.length
      = ctx.obj.mesh.vertices.length := assign_all_groups_length _ _
  have hsome : ∀ v ∈ (assign_all_groups ctx
      (boneIndexes ctx.obj.vertex_groups (bonesOf ctx))).obj.mesh.vertices,
      (normalizeVertex (boneIndexes ctx.obj.vertex_groups (bonesOf ctx))
        ctx.obj.active_index v).isSome := by
    intro v hv
    obtain ⟨j, hgetj⟩ := List.mem_iff_get.mp hv
    have hj : j.1 < ctx.obj.mesh.vertices.length := by
      have := j.2
      omega
    obtain ⟨v'', hv''1, _, hv''3⟩ := assign_all_groups_char ctx _ hco hnd_bi j.1 hj
    have hveq : v = v'' := by
      rw [← hgetj]
      have h1 : (assign_all_groups ctx
          (boneIndexes ctx.obj.vertex_groups (bonesOf ctx))).obj.mesh.vertices[j.1]?
          = some ((assign_all_groups ctx
            (boneIndexes ctx.obj.vertex_groups (bonesOf ctx))).obj.mesh.vertices.get j) := by
        rw [List.getElem?_eq_getElem j.2]
        rw [List.get_eq_getElem]
      rw [h1] at hv''1
      exact Option.some.inj hv''1
    subst hveq
    unfold normalizeVertex
    rw [Option.isSome_map']
    apply NVE_isSome
    rw [hv''3]
    obtain ⟨e, he, heg, hea⟩ := assignedGroups_active_mem _ _ _ hai_bi
    exact ⟨e, he, heg, hea⟩
  obtain ⟨l', hl', hlen', hidx'⟩ := mapM_option_char _ _ hsome
  unfold normalize_armature
  unfold bonesOf armaturesOf at *
  rw [if_neg hb, hget]
  dsimp only
  rw [if_neg (not_not_intro hname)]
  rw [assign_all_groups_active]
  rw [hl']
  dsimp only
  refine ⟨_, rfl, rfl, rfl, by dsimp only; omega, ?_⟩
  intro i hi
  have hi1 : i < (assign_all_groups ctx (boneIndexes ctx.obj.vertex_groups
      (scanModifiers ctx.obj.modifiers [] 0).1)).obj.mesh.vertices.length := by
    omega
  obtain ⟨b, hb1, hb2⟩ := hidx' i hi1
  obtain ⟨v'', hv''1, hv''2, hv''3⟩ := assign_all_groups_char ctx _ hco hnd_bi i hi
  have hgeteq : (assign_all_groups ctx (boneIndexes ctx.obj.vertex_groups
      (scanModifiers ctx.obj.modifiers [] 0).1)).obj.mesh.vertices.get ⟨i, hi1⟩
      = v'' := by
    have h1 : (assign_all_groups ctx (boneIndexes ctx.obj.vertex_groups
        (scanModifiers ctx.obj.modifiers [] 0).1)).obj.mesh.vertices[i]?
        = some ((assign_all_groups ctx (boneIndexes ctx.obj.vertex_groups
          (scanModifiers ctx.obj.modifiers [] 0).1)).obj.mesh.vertices.get ⟨i, hi1⟩) := by
      rw [List.getElem?_eq_getElem hi1]
      rw [List.get_eq_getElem]
    rw [h1] at hv''1
    exact Option.some.inj hv''1
  rw [hgeteq] at hb2
  unfold normalizeVertex at hb2
  rw [Option.map_eq_some'] at hb2
  obtain ⟨es', hes'1, hes'2⟩ := hb2
  refine ⟨b, es', hb1, ?_, ?_, ?_⟩
  · rw [← hes'2]
    dsimp only
    rw [hv''2]
  · rw [← hv''3]
    exact hes'1
  · rw [← hes'2]

/-! ## Facts about the Guarantor's per-vertex output -/

theorem assignedGroups_nodup (G : List Nat) (es : List GroupEntry)
    (hndG : G.Nodup) (hnd : (es.map (fun e => e.group)).Nodup) :
    ((assignedGroups G es).map (fun e => e.group)).Nodup := by
  unfold assignedGroups
  rw [List.map_append, List.map_map]
  have happ : ((G.filter (fun g => ¬ es.any (fun e => e.group = g))).map
      ((fun e => e.group) ∘ (fun g => (⟨g, 0⟩ : GroupEntry))))
      = G.filter (fun g => ¬ es.any (fun e => e.group = g)) := by
    rw [show ((fun e => e.group) ∘ (fun g => (⟨g, 0⟩ : GroupEntry))) = fun g => g from rfl]
    exact List.map_id _
  rw [happ]
  rw [List.nodup_append]
  refine ⟨hnd, hndG.filter _, ?_⟩
  intro a ha hb
  rw [List.mem_filter] at hb
  have hmiss := hb.2
  simp only [decide_eq_true_eq] at hmiss
  apply hmiss
  rw [List.mem_map] at ha
  obtain ⟨e, he, rfl⟩ := ha
  rw [List.any_eq_true]
  exact ⟨e, he, by simp⟩

theorem collSumOther_append_zero (bi : List Nat) (ai : Nat)
    (es zs : List GroupEntry) (hz : ∀ e ∈ zs, e.weight = 0) :
    collSumOther bi ai (es ++ zs) = collSumOther bi ai es := by
  unfold collSumOther clampEntries
  rw [List.map_append, List.filter_append, List.map_append, List.sum_append]
  have hzero : ((List.filter (fun e => decide (e.group ∈ bi ∧ e.group ≠ ai))
      (zs.map (clampEntry bi))).map (fun e => e.weight)).sum = 0 := by
    apply List.sum_eq_zero
    intro x hx
    rw [List.mem_map] at hx
    obtain ⟨e, he, rfl⟩ := hx
    rw [List.mem_filter] at he
    have := he.1
    rw [List.mem_map] at this
    obtain ⟨e0, he0, rfl⟩ := this
    have h0 : e0.weight = 0 := hz e0 he0
    unfold clampEntry
    split
    · dsimp only
      rw [h0]
      decide
    · exact h0
  rw [hzero, add_zero]

theorem collActive_eq_of_unique (bi : List Nat) (ai : Nat) (es : List GroupEntry)
    (k : Nat) (hk : k < es.length)
    (hnd : (es.map (fun e => e.group)).Nodup)
    (hgrp : (es.get ⟨k, hk⟩).group ∈ bi)
    (hact : (es.get ⟨k, hk⟩).group = ai) :
    collActive bi ai es = (k : Int) := by
  have hne : collActive bi ai es ≠ -1 :=
    collActive_ne_neg1 bi ai es ⟨es.get ⟨k, hk⟩, List.get_mem _ _ hk, hgrp, hact⟩
  obtain ⟨j, hj, hcoll, hgrpj, hactj⟩ := collActive_spec bi ai es hne
  have : j = k := nodup_group_inj es hnd j k hj hk (by rw [hactj, hact])
  rw [hcoll, this]

/-- `sum = active weight + sum_other` when the vertex has a unique entry
on the active group. -/
theorem collSum_split_active (bi : List Nat) (ai : Nat) (es : List GroupEntry)
    (k : Nat) (hk : k < es.length)
    (hnd : (es.map (fun e => e.group)).Nodup)
    (hgrp : (es.get ⟨k, hk⟩).group ∈ bi)
    (hact : (es.get ⟨k, hk⟩).group = ai) :
    collSum bi es = clamp01 (es.get ⟨k, hk⟩).weight + collSumOther bi ai es := by
  rw [collSum_eq]
  unfold collPairs
  rw [sum_filter_split _ _ _ (fun p => p.1 = k)]
  have hq : (k, clampEntry bi (es.get ⟨k, hk⟩)) ∈ (clampEntries bi es).enum := by
    rw [mem_enum_iff]
    exact ⟨by rw [clampEntries_length]; exact hk, clampEntries_get bi es k hk⟩
  have hsing : (clampEntries bi es).enum.filter
      (fun p => decide (p.2.group ∈ bi) && decide (p.1 = k))
      = [(k, clampEntry bi (es.get ⟨k, hk⟩))] := by
    apply filter_eq_singleton _ _ _ (enum_nodup _) hq
    · show (decide ((clampEntry bi (es.get ⟨k, hk⟩)).group ∈ bi) && decide (k = k)) = true
      rw [clampEntry_group, Bool.and_eq_true]
      exact ⟨decide_eq_true hgrp, by simp⟩
    · intro y hy hpy
      simp only [Bool.and_eq_true, decide_eq_true_eq] at hpy
      obtain ⟨hlt, hget⟩ := mem_enum_iff.mp hy
      refine Prod.ext hpy.2 ?_
      dsimp only
      rw [← hget, ← clampEntries_get bi es k hk]
      congr 1
      exact Fin.ext hpy.2
  have hfilt : (clampEntries bi es).enum.filter
      (fun p => decide (p.2.group ∈ bi) && ! decide (p.1 = k))
      = (clampEntries bi es).enum.filter
          (fun p => decide (p.2.group ∈ bi ∧ p.2.group ≠ ai)) := by
    apply List.filter_congr
    intro p hp
    obtain ⟨hlt, hget⟩ := mem_enum_iff.mp hp
    have hlt2 : p.1 < es.length := by
      rw [clampEntries_length] at hlt
      exact hlt
    have hgroup : p.2.group = (es.get ⟨p.1, hlt2⟩).group := by
      rw [← hget]
      exact clampEntries_group_get bi es p.1 hlt2
    by_cases hb : p.2.group ∈ bi
    · by_cases h2 : p.1 = k
      · have hai : p.2.group = ai := by
          rw [hgroup, ← hact]
          simp only [List.get_eq_getElem, h2]
        simp [hb, h2, hai]
      · have hai : p.2.group ≠ ai := by
          rw [hgroup]
          intro hai
          exact h2 (nodup_group_inj es hnd p.1 k hlt2 hk (by rw [hai, hact]))
        simp [hb, h2, hai]
    · simp [hb]
  rw [hsing, hfilt]
  rw [List.map_cons, List.map_nil, List.sum_cons, List.sum_nil]
  have hw : (k, clampEntry bi (es.get ⟨k, hk⟩)).2.weight
      = clamp01 (es.get ⟨k, hk⟩).weight := by
    dsimp only
    rw [clampEntry_mem bi _ hgrp]
  rw [hw, collSumOther_eq]
  ring

theorem clampEntries_getElem? (bi : List Nat) (es : List GroupEntry) (j : Nat)
    (hj : j < es.length) :
    (clampEntries bi es)[j]? = some (clampEntry bi (es.get ⟨j, hj⟩)) := by
  rw [List.getElem?_eq_getElem (by rw [clampEntries_length]; exact hj)]
  have hg := clampEntries_get bi es j hj
  rw [List.get_eq_getElem] at hg
  rw [hg]

/-- Case C at the entry-list level: the active entry is returned untouched
and every other collected entry is rescaled by
`(1 - active) * (w / sum_other)`. -/
theorem NVE_caseC_entries (bi : List Nat) (ai : Nat) (es : List GroupEntry)
    (hnd : (es.map (fun e => e.group)).Nodup)
    (k : Nat) (hk : k < es.length)
    (hgrp : (es.get ⟨k, hk⟩).group ∈ bi)
    (hact : (es.get ⟨k, hk⟩).group = ai)
    (ha0 : 0 < (es.get ⟨k, hk⟩).weight) (ha1 : (es.get ⟨k, hk⟩).weight < 1)
    (hso : collSumOther bi ai es ≠ 0) :
    ∃ es', normalizeVertexEntries bi ai es = some es'
      ∧ ∀ j (hj : j < es.length),
          ((es.get ⟨j, hj⟩).group = ai → es'[j]? = some (es.get ⟨j, hj⟩))
          ∧ ((es.get ⟨j, hj⟩).group ∈ bi → (es.get ⟨j, hj⟩).group ≠ ai →
              es'[j]? = some { es.get ⟨j, hj⟩ with weight :=
                (1 - (es.get ⟨k, hk⟩).weight)
                  * (clamp01 (es.get ⟨j, hj⟩).weight / collSumOther bi ai es) }) := by
  have hclampa : clamp01 (es.get ⟨k, hk⟩).weight = (es.get ⟨k, hk⟩).weight :=
    clamp01_eq_self _ (le_of_lt ha0) (le_of_lt ha1)
  have hcoll := collActive_eq_of_unique bi ai es k hk hnd hgrp hact
  have hactiveeta : clampEntry bi (es.get ⟨k, hk⟩) = es.get ⟨k, hk⟩ := by
    rw [clampEntry_mem bi _ hgrp, hclampa]
  by_cases hs : collSum bi es = 1
  · refine ⟨clampEntries bi es, NVE_skip bi ai es hs, ?_⟩
    have hsplit := collSum_split_active bi ai es k hk hnd hgrp hact
    rw [hs, hclampa] at hsplit
    have hsoeq : collSumOther bi ai es = 1 - (es.get ⟨k, hk⟩).weight := by linarith
    intro j hj
    constructor
    · intro hjg
      have hjk : j = k :=
        nodup_group_inj es hnd j k hj hk (by rw [hjg, hact])
      subst hjk
      rw [clampEntries_getElem? bi es j hj, hactiveeta]
    · intro hjb hjna
      rw [clampEntries_getElem? bi es j hj]
      rw [clampEntry_mem bi _ hjb]
      congr 2
      rw [hsoeq]
      have hne : (1 : ℚ) - (es.get ⟨k, hk⟩).weight ≠ 0 := by
        rw [← hsoeq]
        exact hso
      rw [eq_comm, mul_comm, div_mul_cancel₀ _ hne]
  · have hge : ¬ (1 ≤ clamp01 (es.get ⟨k, hk⟩).weight) := by
      rw [hclampa]
      linarith
    refine ⟨_, NVE_caseC bi ai es hs k hk hgrp hcoll hge hso, ?_⟩
    intro j hj
    have hjc : j < (clampEntries bi es).length := by
      rw [clampEntries_length]
      exact hj
    have hmap := enum_map_getElem? (clampEntries bi es)
      (fun p => if p.2.group ∈ bi ∧ p.1 ≠ k
        then { p.2 with weight := (1 - clamp01 (es.get ⟨k, hk⟩).weight)
          * (p.2.weight / collSumOther bi ai es) }
        else p.2) j hjc
    have hclj : (clampEntries bi es).get ⟨j, hjc⟩ = clampEntry bi (es.get ⟨j, hj⟩) :=
      clampEntries_get bi es j hj
    constructor
    · intro hjg
      have hjk : j = k :=
        nodup_group_inj es hnd j k hj hk (by rw [hjg, hact])
      subst hjk
      rw [hmap, hclj]
      rw [if_neg (by rintro ⟨_, hne⟩; exact hne rfl)]
      rw [hactiveeta]
    · intro hjb hjna
      have hjk : j ≠ k := by
        intro hjk
        apply hjna
        rw [← hact]
        subst hjk
        rfl
      rw [hmap, hclj]
      rw [if_pos ⟨by rw [clampEntry_group]; exact hjb, hjk⟩]
      rw [clampEntry_mem bi _ hjb]
      rw [hclampa]

/-! ## Helper lemmas for the claim statements -/

theorem IndexCoherent_single (v : Vertex) (h : v.index = 0) : IndexCoherent ⟨[v]⟩ := by
  intro i hi
  have h0 : i = 0 := Nat.lt_one_iff.mp hi
  subst h0
  exact h

theorem assignedGroups_le_length (G : List Nat) (es : List GroupEntry) (j : Nat)
    (hj : j < es.length) : j < (assignedGroups G es).length := by
  unfold assignedGroups
  rw [List.length_append]
  omega

theorem assignedGroups_getElem_left (G : List Nat) (es : List GroupEntry)
    (j : Nat) (hj : j < es.length) :
    (assignedGroups G es)[j]? = some (es.get ⟨j, hj⟩) := by
  unfold assignedGroups
  rw [List.getElem?_append, if_pos hj, List.getElem?_eq_getElem hj, List.get_eq_getElem]

theorem assignedGroups_get_left (G : List Nat) (es : List GroupEntry)
    (j : Nat) (hj : j < es.length) (hj' : j < (assignedGroups G es).length) :
    (assignedGroups G es).get ⟨j, hj'⟩ = es.get ⟨j, hj⟩ := by
  have h := assignedGroups_getElem_left G es j hj
  rw [List.getElem?_eq_getElem hj'] at h
  rw [List.get_eq_getElem, List.get_eq_getElem] at *
  exact Option.some.inj h

theorem assignedGroups_complete (G : List Nat) (es : List GroupEntry) (g : Nat)
    (hg : g ∈ G) : (assignedGroups G es).any (fun e => e.group = g) := by
  obtain ⟨e, he, _, hea⟩ := assignedGroups_active_mem G es g hg
  rw [List.any_eq_true]
  exact ⟨e, he, by simp [hea]⟩

theorem collSumOther_assignedGroups (bi : List Nat) (ai : Nat) (G : List Nat)
    (es : List GroupEntry) :
    collSumOther bi ai (assignedGroups G es) = collSumOther bi ai es := by
  unfold assignedGroups
  apply collSumOther_append_zero
  intro e he
  rw [List.mem_map] at he
  obtain ⟨g, _, rfl⟩ := he
  rfl

theorem groupWeights_of_shape (bi : List Nat) (g : Nat) (hg : g ∉ bi) :
    ∀ (es es' : List GroupEntry),
      es'.length = es.length →
      (∀ j (hj : j < es.length), ∃ e', es'[j]? = some e'
          ∧ e'.group = (es.get ⟨j, hj⟩).group
          ∧ ((es.get ⟨j, hj⟩).group ∉ bi → e' = es.get ⟨j, hj⟩)) →
      groupWeights g es' = groupWeights g es
  | [], [], _, _ => rfl
  | [], _ :: _, hlen, _ => by cases hlen
  | _ :: _, [], hlen, _ => by cases hlen
  | a :: t, a' :: t', hlen, hpt => by
    obtain ⟨e'', he''1, he''2, he''3⟩ := hpt 0 (by simp)
    have he'' : e'' = a' := by
      have h00 : (a' :: t')[0]? = some a' := by simp
      rw [h00] at he''1
      exact (Option.some.inj he''1).symm
    subst he''
    have htail : groupWeights g t' = groupWeights g t :=
      groupWeights_of_shape bi g hg t t' (by simpa using hlen)
        (fun j hj => by
          obtain ⟨e3, h1, h2, h3⟩ := hpt (j + 1) (by simpa using hj)
          exact ⟨e3, by simpa using h1, h2, h3⟩)
    unfold groupWeights at htail ⊢
    rw [List.filter_cons, List.filter_cons]
    by_cases hga : a.group = g
    · have hnb : a.group ∉ bi := by rw [hga]; exact hg
      have ha' : e'' = a := he''3 hnb
      subst ha'
      rw [if_pos (by simpa using hga), if_pos (by simpa using hga)]
      rw [List.map_cons, List.map_cons, htail]
    · have hga2 : ¬ (e''.group = g) := by rw [he''2]; exact hga
      rw [if_neg (by simpa using hga2), if_neg (by simpa using hga)]
      exact htail

theorem groupWeights_assignedGroups (G : List Nat) (es : List GroupEntry) (g : Nat)
    (hg : g ∉ G) :
    groupWeights g (assignedGroups G es) = groupWeights g es := by
  unfold assignedGroups groupWeights
  rw [List.filter_append, List.map_append]
  have h0 : (((G.filter (fun x => ¬ es.any (fun e => e.group = x))).map
      (fun x => (⟨x, 0⟩ : GroupEntry))).filter (fun e => e.group = g)) = [] := by
    rw [List.filter_eq_nil_iff]
    intro e he
    rw [List.mem_map] at he
    obtain ⟨x, hx, rfl⟩ := he
    rw [List.mem_filter] at hx
    simp only [decide_eq_true_eq]
    intro hxg
    exact hg (hxg ▸ hx.1)
  rw [h0, List.map_nil, List.append_nil]

/-! ## The claims -/

/-- Claim C2: on a Case D vertex the source writes `bias * (1 / len(weights))`
to each non-active collected group, not `bias / (count - 1)`.  With active
weight 1/2 and one other zero-weight collected group, `bias = 1/2` and
`count = 2`, so the claimed value is `1/2`; the code writes `1/4`, and the
resulting armature-group sum is 3/4, not 1. -/
theorem claim_C2 :
    normalizeVertexEntries [0, 1] 0 [⟨0, mkRat 1 2⟩, ⟨1, 0⟩]
      = some [⟨0, mkRat 1 2⟩, ⟨1, mkRat 1 4⟩]
    ∧ ((1 - mkRat 1 2) / (2 - 1) : ℚ) = mkRat 1 2
    ∧ (mkRat 1 4 : ℚ) ≠ mkRat 1 2
    ∧ armSum [0, 1] [⟨0, mkRat 1 2⟩, ⟨1, mkRat 1 4⟩] = mkRat 3 4 := by
  decide

/-- Claim C4: the operation is not idempotent.  On the Case D context
`ctxD` the first run writes weights (1/2, 1/4); the second run (a Case C
pass over that state) writes (1/2, 1/2), so running twice differs from
running once. -/
theorem claim_C4 :
    (normalize_armature ctxD).bind (fun out1 =>
        (normalize_armature out1.ctx).map (fun out2 =>
          (out1.ctx.obj.mesh.vertices.map (fun v => v.groups),
           out2.ctx.obj.mesh.vertices.map (fun v => v.groups))))
      = some ([[⟨0, mkRat 1 2⟩, ⟨1, mkRat 1 4⟩]],
              [[⟨0, mkRat 1 2⟩, ⟨1, mkRat 1 2⟩]])
    ∧ ([[(⟨0, mkRat 1 2⟩ : GroupEntry), ⟨1, mkRat 1 4⟩]]
        : List (List GroupEntry))
      ≠ [[⟨0, mkRat 1 2⟩, ⟨1, mkRat 1 2⟩]] := by
  decide

/-- Claim C6: both fatal precondition failures (no qualifying armature
binding; active group's name not a bone of the discovered skeleton) report
the corresponding error and return CANCELLED with the context exactly as it
was: no membership or weight data is mutated on either error path. -/
theorem claim_C6 (ctx : Context) :
    (bonesOf ctx = [] →
      normalize_armature ctx = some ⟨[("ERROR", msgNoArmature)], "CANCELLED", ctx⟩)
    ∧ (∀ grp, bonesOf ctx ≠ [] →
        ctx.obj.vertex_groups.get? ctx.obj.active_index = some grp →
        grp.name ∉ bonesOf ctx →
        normalize_armature ctx = some ⟨[("ERROR", msgNotOnArmature)], "CANCELLED", ctx⟩) := by
  constructor
  · intro h
    unfold normalize_armature
    unfold bonesOf at h
    rw [if_pos h]
  · intro grp hb hget hname
    unfold normalize_armature
    unfold bonesOf at hb hname
    rw [if_neg hb, hget]
    dsimp only
    rw [if_pos hname]

/-- Claim C6, witness: the two error paths at concrete contexts (no
modifier at all; active group named after no bone). -/
theorem claim_C6_witness :
    bonesOf ctxNoArm = []
    ∧ normalize_armature ctxNoArm
        = some ⟨[("ERROR", msgNoArmature)], "CANCELLED", ctxNoArm⟩
    ∧ bonesOf ctxWrongGroup ≠ []
    ∧ ctxWrongGroup.obj.vertex_groups.get? ctxWrongGroup.obj.active_index
        = some ⟨"C"⟩
    ∧ (⟨"C"⟩ : VertexGroup).name ∉ bonesOf ctxWrongGroup
    ∧ normalize_armature ctxWrongGroup
        = some ⟨[("ERROR", msgNotOnArmature)], "CANCELLED", ctxWrongGroup⟩ :=
  ⟨by decide, (claim_C6 ctxNoArm).1 (by decide), by decide, by decide, by decide,
    (claim_C6 ctxWrongGroup).2 ⟨"C"⟩ (by decide) (by decide) (by decide)⟩

/-- Claim C7: after the Guarantor runs on group list `G`, every vertex has
an entry for every id in `G`; its entry list is the old one followed by
zero-weight entries for exactly the ids of `G` it was missing, and every
pre-existing entry is returned unchanged at its old position. -/
theorem claim_C7 (ctx : Context) (G : List Nat)
    (hco : IndexCoherent ctx.obj.mesh) (hndG : G.Nodup)
    (i : Nat) (hi : i < ctx.obj.mesh.vertices.length) :
    ∃ v', (assign_all_groups ctx G).obj.mesh.vertices[i]? = some v'
      ∧ v'.groups = (ctx.obj.mesh.vertices.get ⟨i, hi⟩).groups
          ++ (G.filter (fun g => ¬ (ctx.obj.mesh.vertices.get ⟨i, hi⟩).groups.any
                (fun e => e.group = g))).map (fun g => (⟨g, 0⟩ : GroupEntry))
      ∧ (∀ g ∈ G, v'.groups.any (fun e => e.group = g))
      ∧ (∀ j (hj : j < (ctx.obj.mesh.vertices.get ⟨i, hi⟩).groups.length),
          v'.groups[j]? = some ((ctx.obj.mesh.vertices.get ⟨i, hi⟩).groups.get ⟨j, hj⟩)) := by
  obtain ⟨v', h1, _, h3⟩ := assign_all_groups_char ctx G hco hndG i hi
  refine ⟨v', h1, by rw [h3]; rfl, ?_, ?_⟩
  · intro g hgmem
    rw [h3]
    exact assignedGroups_complete G _ g hgmem
  · intro j hj
    rw [h3]
    exact assignedGroups_getElem_left G _ j hj

/-- Claim C7, witness: the Guarantor at a concrete one-vertex context with
`G = [0, 1]`, where the vertex is in group 0 only and receives a zero-weight
entry for group 1. -/
theorem claim_C7_witness :
    IndexCoherent ctxSel.obj.mesh ∧ ([0, 1] : List Nat).Nodup
    ∧ (∃ v', (assign_all_groups ctxSel [0, 1]).obj.mesh.vertices[0]? = some v'
        ∧ v'.groups = [⟨0, 1⟩, ⟨1, 0⟩]
        ∧ (∀ g ∈ ([0, 1] : List Nat), v'.groups.any (fun e => e.group = g))) := by
  refine ⟨IndexCoherent_single _ rfl, by decide, ?_⟩
  obtain ⟨v', h1, h2, h3, _⟩ := claim_C7 ctxSel [0, 1]
    (IndexCoherent_single _ rfl) (by decide) 0 (by decide)
  refine ⟨v', h1, ?_, h3⟩
  rw [h2]
  decide

/-- Claim C9 (amended): the Guarantor restores the active-group pointer,
the tool-settings group weight, and the group table, and restores the
interaction mode whenever the saved mode is one of the standard `mode_set`
identifiers.  The user-facing vertex selection state is NOT restored (see
the counterexample), so the original claim holds only with the selection
clause dropped. -/
theorem claim_C9 (ctx : Context) (G : List Nat)
    (hmode : ctx.obj.mode ∈ ["OBJECT", "EDIT", "POSE", "SCULPT",
        "VERTEX_PAINT", "WEIGHT_PAINT", "TEXTURE_PAINT"]) :
    (assign_all_groups ctx G).obj.active_index = ctx.obj.active_index
    ∧ (assign_all_groups ctx G).tool.vertex_group_weight = ctx.tool.vertex_group_weight
    ∧ (assign_all_groups ctx G).obj.vertex_groups = ctx.obj.vertex_groups
    ∧ (assign_all_groups ctx G).obj.mode = ctx.obj.mode := by
  refine ⟨rfl, rfl, assign_all_groups_vertex_groups ctx G, ?_⟩
  rw [assign_all_groups_mode]
  simp only [List.mem_cons, List.not_mem_nil, or_false] at hmode
  rcases hmode with h | h | h | h | h | h | h
  all_goals rw [h]
  all_goals rfl

/-- Claim C9, counterexample: a selected vertex already in the group keeps
its membership and weights, but the Guarantor leaves it deselected: the
user-facing selection state is not restored. -/
theorem claim_C9_counterexample :
    ctxSel.obj.mesh.vertices.map (fun v => v.select) = [true]
    ∧ (assign_all_groups ctxSel [0]).obj.mesh.vertices.map (fun v => v.select) = [false]
    ∧ (assign_all_groups ctxSel [0]).obj.mesh.vertices.map (fun v => v.groups)
        = ctxSel.obj.mesh.vertices.map (fun v => v.groups) := by
  decide

/-- Claim C9, witness: the restored state at a concrete WEIGHT_PAINT
context. -/
theorem claim_C9_witness :
    ctxSel.obj.mode ∈ (["OBJECT", "EDIT", "POSE", "SCULPT",
        "VERTEX_PAINT", "WEIGHT_PAINT", "TEXTURE_PAINT"] : List String)
    ∧ ((assign_all_groups ctxSel [0]).obj.active_index = ctxSel.obj.active_index
      ∧ (assign_all_groups ctxSel [0]).tool.vertex_group_weight
          = ctxSel.tool.vertex_group_weight
      ∧ (assign_all_groups ctxSel [0]).obj.vertex_groups = ctxSel.obj.vertex_groups
      ∧ (assign_all_groups ctxSel [0]).obj.mode = ctxSel.obj.mode) :=
  ⟨by decide, claim_C9 ctxSel [0] (by decide)⟩

/-- Claim C10: once the Guarantor has given the vertex an entry for every
armature group (here `assignedGroups`), and the active index is an armature
group, the gathered `active_group` is never -1 and every branch of the
per-vertex algorithm returns (the `indexes.index(active_group)` lookup
cannot raise); without that precondition a vertex lacking an active-group
entry whose collected weights are all zero makes the lookup raise
Python's ValueError (modelled as `none`). -/
theorem claim_C10 (bi : List Nat) (ai : Nat) (es : List GroupEntry)
    (hai : ai ∈ bi) :
    collActive bi ai (assignedGroups bi es) ≠ -1
    ∧ (normalizeVertexEntries bi ai (assignedGroups bi es)).isSome
    ∧ normalizeVertexEntries [0, 1] 0 [⟨1, 0⟩] = none := by
  have hex := assignedGroups_active_mem bi es ai hai
  exact ⟨collActive_ne_neg1 _ _ _ hex, NVE_isSome _ _ _ hex, by decide⟩

/-- Claim C10, witness: the safety facts at a concrete armature-group set
and a vertex that starts with no active-group entry. -/
theorem claim_C10_witness :
    (0 : Nat) ∈ [0, 1]
    ∧ (collActive [0, 1] 0 (assignedGroups [0, 1] [⟨1, mkRat 1 2⟩]) ≠ -1
      ∧ (normalizeVertexEntries [0, 1] 0 (assignedGroups [0, 1] [⟨1, mkRat 1 2⟩])).isSome
      ∧ normalizeVertexEntries [0, 1] 0 [⟨1, 0⟩] = none) :=
  ⟨by decide, claim_C10 [0, 1] 0 [⟨1, mkRat 1 2⟩] (by decide)⟩

/-- Claim C1 (amended): after a successful normalize, a vertex's weights
restricted to the armature groups sum to exactly 1 provided the vertex's
non-active collected weight is nonzero, or its active-group entry carries
weight at least 1.  (The original eligibility condition — any nonzero
armature weight, or a nonzero active entry — is refuted by the
counterexample: a lone active entry of 1/2 is left at sum 1/2.) -/
theorem claim_C1 (ctx : Context)
    (hco : IndexCoherent ctx.obj.mesh)
    (hnd : ∀ v ∈ ctx.obj.mesh.vertices, (v.groups.map (fun e => e.group)).Nodup)
    (hb : bonesOf ctx ≠ [])
    (grp : VertexGroup)
    (hget : ctx.obj.vertex_groups.get? ctx.obj.active_index = some grp)
    (hname : grp.name ∈ bonesOf ctx)
    (i : Nat) (hi : i < ctx.obj.mesh.vertices.length)
    (hE : collSumOther (boneIndexes ctx.obj.vertex_groups (bonesOf ctx))
            ctx.obj.active_index (ctx.obj.mesh.vertices.get ⟨i, hi⟩).groups ≠ 0
          ∨ ∃ e ∈ (ctx.obj.mesh.vertices.get ⟨i, hi⟩).groups,
              e.group = ctx.obj.active_index ∧ 1 ≤ e.weight) :
    ∃ out v', normalize_armature ctx = some out
      ∧ out.status = "FINISHED"
      ∧ out.ctx.obj.mesh.vertices[i]? = some v'
      ∧ armSum (boneIndexes ctx.obj.vertex_groups (bonesOf ctx)) v'.groups = 1 := by
  obtain ⟨out, h1, h2, _, _, h5⟩ := normalize_armature_success ctx hco hb grp hget hname
  obtain ⟨v', es', hv1, _, hv3, hv4⟩ := h5 i hi
  set bi := boneIndexes ctx.obj.vertex_groups (bonesOf ctx) with hbi
  set ai := ctx.obj.active_index with hai
  set es0 := (ctx.obj.mesh.vertices.get ⟨i, hi⟩).groups with hes0
  have hndbi : bi.Nodup := boneIndexes_nodup _ _
  have hnd0 : (es0.map (fun e => e.group)).Nodup := hnd _ (List.get_mem _ _ _)
  have hndA : ((assignedGroups bi es0).map (fun e => e.group)).Nodup :=
    assignedGroups_nodup bi es0 hndbi hnd0
  have haimem : ai ∈ bi := active_mem_boneIndexes _ _ _ grp hget hname
  have hex := assignedGroups_active_mem bi es0 ai haimem
  have hE' : collSumOther bi ai (assignedGroups bi es0) ≠ 0
      ∨ ∃ e ∈ assignedGroups bi es0, e.group = ai ∧ 1 ≤ e.weight := by
    rcases hE with h | ⟨e, he, he1, he2⟩
    · left
      rw [collSumOther_assignedGroups]
      exact h
    · right
      refine ⟨e, ?_, he1, he2⟩
      unfold assignedGroups
      exact List.mem_append_left _ he
  obtain ⟨es'', hes''1, hes''2⟩ := NVE_sum_one bi ai (assignedGroups bi es0) hndA hex hE'
  rw [hv3] at hes''1
  obtain rfl : es' = es'' := Option.some.inj hes''1
  exact ⟨out, v', h1, h2, hv1, by rw [hv4]; exact hes''2⟩

/-- Claim C1, counterexample: a vertex whose only armature entry is the
active group at weight 1/2 is eligible under the original claim (a nonzero
active entry), yet a successful normalize leaves its armature sum at 1/2,
more than 1e-6 away from 1. -/
theorem claim_C1_counterexample :
    armSum (boneIndexes ctxSingle.obj.vertex_groups (bonesOf ctxSingle))
        ((ctxSingle.obj.mesh.vertices.getD 0 ⟨0, false, []⟩).groups) = mkRat 1 2
    ∧ (normalize_armature ctxSingle).map (fun out => (out.status,
        out.ctx.obj.mesh.vertices.map (fun v =>
          armSum (boneIndexes ctxSingle.obj.vertex_groups (bonesOf ctxSingle)) v.groups)))
      = some ("FINISHED", [mkRat 1 2])
    ∧ ((1 : ℚ) - mkRat 1 2 > mkRat 1 1000000) := by
  decide

/-- Claim C1, witness: the amended statement at a vertex with active entry
1/2 and another armature entry 1/4 (`sum_other` nonzero). -/
theorem claim_C1_witness :
    IndexCoherent ctxC.obj.mesh
    ∧ bonesOf ctxC ≠ []
    ∧ ctxC.obj.vertex_groups.get? ctxC.obj.active_index = some ⟨"A"⟩
    ∧ (⟨"A"⟩ : VertexGroup).name ∈ bonesOf ctxC
    ∧ collSumOther (boneIndexes ctxC.obj.vertex_groups (bonesOf ctxC))
        ctxC.obj.active_index (ctxC.obj.mesh.vertices.getD 0 ⟨0, false, []⟩).groups ≠ 0
    ∧ (∃ out v', normalize_armature ctxC = some out
        ∧ out.status = "FINISHED"
        ∧ out.ctx.obj.mesh.vertices[0]? = some v'
        ∧ armSum (boneIndexes ctxC.obj.vertex_groups (bonesOf ctxC)) v'.groups = 1) :=
  ⟨IndexCoherent_single _ rfl, by decide, by decide, by decide, by decide,
    claim_C1 ctxC (IndexCoherent_single _ rfl) (by decide) (by decide) ⟨"A"⟩
      (by decide) (by decide) 0 (by decide) (Or.inl (by decide))⟩

/-- Claim C3 (amended): with more than one qualifying armature binding the
operation warns and still finishes, but it normalizes with the bone set of
the SECOND qualifying binding discovered, not the first: the scan loop
overwrites `bones` before breaking at a count of 2. -/
theorem claim_C3 (ctx : Context)
    (hco : IndexCoherent ctx.obj.mesh)
    (m1 m2 : Modifier) (rest : List Modifier)
    (hfilt : ctx.obj.modifiers.filter qualifies = m1 :: m2 :: rest)
    (hmb : modBones m2 ≠ [])
    (grp : VertexGroup)
    (hget : ctx.obj.vertex_groups.get? ctx.obj.active_index = some grp)
    (hname : grp.name ∈ modBones m2) :
    bonesOf ctx = modBones m2
    ∧ ∃ out, normalize_armature ctx = some out
        ∧ out.status = "FINISHED"
        ∧ out.reports = [("WARNING", msgMultiple)] := by
  have hscan : scanModifiers ctx.obj.modifiers [] 0 = (modBones m2, 2) :=
    scanModifiers_two ctx.obj.modifiers [] m1 m2 rest hfilt
  have hbones : bonesOf ctx = modBones m2 := by
    unfold bonesOf
    rw [hscan]
  have harm : armaturesOf ctx = 2 := by
    unfold armaturesOf
    rw [hscan]
  obtain ⟨out, h1, h2, h3, _, _⟩ := normalize_armature_success ctx hco
    (by rw [hbones]; exact hmb) grp hget (by rw [hbones]; exact hname)
  refine ⟨hbones, out, h1, h2, ?_⟩
  rw [h3, harm]
  rfl

/-- Claim C3, counterexample: a context with two qualifying bindings whose
bone sets differ.  The first discovered binding's bone set is ["A"], yet
the operation runs with bone set ["B"] (and indeed finishes with the
warning even though the active group is no bone of the first binding). -/
theorem claim_C3_counterexample :
    firstQualifyingBones ctxTwoArms.obj.modifiers = some ["A"]
    ∧ bonesOf ctxTwoArms = ["B"]
    ∧ (normalize_armature ctxTwoArms).map (fun out => (out.status, out.reports))
        = some ("FINISHED", [("WARNING", msgMultiple)])
    ∧ (["B"] : List String) ≠ ["A"] := by
  decide

/-- Claim C3, witness: the amended statement at the two-binding context. -/
theorem claim_C3_witness :
    ctxTwoArms.obj.modifiers.filter qualifies = [armMod ["A"], armMod ["B"]]
    ∧ modBones (armMod ["B"]) ≠ []
    ∧ (bonesOf ctxTwoArms = modBones (armMod ["B"])
      ∧ ∃ out, normalize_armature ctxTwoArms = some out
          ∧ out.status = "FINISHED"
          ∧ out.reports = [("WARNING", msgMultiple)]) :=
  ⟨by decide, by decide,
    claim_C3 ctxTwoArms (IndexCoherent_single _ rfl) (armMod ["A"]) (armMod ["B"]) []
      (by decide) (by decide) ⟨"B"⟩ (by decide) (by decide)⟩

/-- Claim C5: on a Case C vertex (unique active-group entry with weight
`a` in (0,1) and positive non-active collected sum), a successful
normalize returns the active entry exactly unchanged, and rescales every
other collected entry's (clamped) weight `w` to
`(1 - a) * (w / sum_other)`. -/
theorem claim_C5 (ctx : Context)
    (hco : IndexCoherent ctx.obj.mesh)
    (hnd : ∀ v ∈ ctx.obj.mesh.vertices, (v.groups.map (fun e => e.group)).Nodup)
    (hb : bonesOf ctx ≠ [])
    (grp : VertexGroup)
    (hget : ctx.obj.vertex_groups.get? ctx.obj.active_index = some grp)
    (hname : grp.name ∈ bonesOf ctx)
    (i : Nat) (hi : i < ctx.obj.mesh.vertices.length)
    (k : Nat) (hk : k < (ctx.obj.mesh.vertices.get ⟨i, hi⟩).groups.length)
    (hgrpk : ((ctx.obj.mesh.vertices.get ⟨i, hi⟩).groups.get ⟨k, hk⟩).group
        ∈ boneIndexes ctx.obj.vertex_groups (bonesOf ctx))
    (hactk : ((ctx.obj.mesh.vertices.get ⟨i, hi⟩).groups.get ⟨k, hk⟩).group
        = ctx.obj.active_index)
    (ha0 : 0 < ((ctx.obj.mesh.vertices.get ⟨i, hi⟩).groups.get ⟨k, hk⟩).weight)
    (ha1 : ((ctx.obj.mesh.vertices.get ⟨i, hi⟩).groups.get ⟨k, hk⟩).weight < 1)
    (hso : 0 < collSumOther (boneIndexes ctx.obj.vertex_groups (bonesOf ctx))
        ctx.obj.active_index (ctx.obj.mesh.vertices.get ⟨i, hi⟩).groups) :
    ∃ out v', normalize_armature ctx = some out
      ∧ out.status = "FINISHED"
      ∧ out.ctx.obj.mesh.vertices[i]? = some v'
      ∧ v'.groups[k]? = some ((ctx.obj.mesh.vertices.get ⟨i, hi⟩).groups.get ⟨k, hk⟩)
      ∧ ∀ j (hj : j < (ctx.obj.mesh.vertices.get ⟨i, hi⟩).groups.length),
          ((ctx.obj.mesh.vertices.get ⟨i, hi⟩).groups.get ⟨j, hj⟩).group
              ∈ boneIndexes ctx.obj.vertex_groups (bonesOf ctx) →
          ((ctx.obj.mesh.vertices.get ⟨i, hi⟩).groups.get ⟨j, hj⟩).group
              ≠ ctx.obj.active_index →
          v'.groups[j]? = some { (ctx.obj.mesh.vertices.get ⟨i, hi⟩).groups.get ⟨j, hj⟩
            with weight :=
              (1 - ((ctx.obj.mesh.vertices.get ⟨i, hi⟩).groups.get ⟨k, hk⟩).weight)
                * (clamp01 ((ctx.obj.mesh.vertices.get ⟨i, hi⟩).groups.get ⟨j, hj⟩).weight
                    / collSumOther (boneIndexes ctx.obj.vertex_groups (bonesOf ctx))
                      ctx.obj.active_index
                      (ctx.obj.mesh.vertices.get ⟨i, hi⟩).groups) } := by
  obtain ⟨out, h1, h2, _, _, h5⟩ := normalize_armature_success ctx hco hb grp hget hname
  obtain ⟨v', es', hv1, _, hv3, hv4⟩ := h5 i hi
  set bi := boneIndexes ctx.obj.vertex_groups (bonesOf ctx) with hbi
  set ai := ctx.obj.active_index with hai
  set es0 := (ctx.obj.mesh.vertices.get ⟨i, hi⟩).groups with hes0
  have hndbi : bi.Nodup := boneIndexes_nodup _ _
  have hnd0 : (es0.map (fun e => e.group)).Nodup := hnd _ (List.get_mem _ _ _)
  have hndA : ((assignedGroups bi es0).map (fun e => e.group)).Nodup :=
    assignedGroups_nodup bi es0 hndbi hnd0
  have hkA : k < (assignedGroups bi es0).length := assignedGroups_le_length bi es0 k hk
  have hgetk : (assignedGroups bi es0).get ⟨k, hkA⟩ = es0.get ⟨k, hk⟩ :=
    assignedGroups_get_left bi es0 k hk hkA
  have hsoA : collSumOther bi ai (assignedGroups bi es0) = collSumOther bi ai es0 :=
    collSumOther_assignedGroups bi ai bi es0
  obtain ⟨es'', hes''1, hes''2⟩ := NVE_caseC_entries bi ai (assignedGroups bi es0) hndA
    k hkA (by rw [hgetk]; exact hgrpk) (by rw [hgetk]; exact hactk)
    (by rw [hgetk]; exact ha0) (by rw [hgetk]; exact ha1)
    (by rw [hsoA]; exact ne_of_gt hso)
  rw [hv3] at hes''1
  obtain rfl : es' = es'' := Option.some.inj hes''1
  refine ⟨out, v', h1, h2, hv1, ?_, ?_⟩
  · rw [hv4]
    have h := (hes''2 k hkA).1 (by rw [hgetk]; exact hactk)
    rw [h, hgetk]
  · intro j hj hjb hjna
    have hjA : j < (assignedGroups bi es0).length := assignedGroups_le_length bi es0 j hj
    have hgetj : (assignedGroups bi es0).get ⟨j, hjA⟩ = es0.get ⟨j, hj⟩ :=
      assignedGroups_get_left bi es0 j hj hjA
    have h := (hes''2 j hjA).2 (by rw [hgetj]; exact hjb) (by rw [hgetj]; exact hjna)
    rw [hv4, h, hgetj, hgetk, hsoA]

/-- Claim C5, witness: the Case C facts at the concrete context with
active entry 1/2 and another armature entry 1/4: the active entry is
returned unchanged. -/
theorem claim_C5_witness :
    0 < ((ctxC.obj.mesh.vertices.get ⟨0, by decide⟩).groups.get ⟨0, by decide⟩).weight
    ∧ ((ctxC.obj.mesh.vertices.get ⟨0, by decide⟩).groups.get ⟨0, by decide⟩).weight < 1
    ∧ 0 < collSumOther (boneIndexes ctxC.obj.vertex_groups (bonesOf ctxC))
        ctxC.obj.active_index (ctxC.obj.mesh.vertices.get ⟨0, by decide⟩).groups
    ∧ (∃ out v', normalize_armature ctxC = some out
        ∧ out.status = "FINISHED"
        ∧ out.ctx.obj.mesh.vertices[0]? = some v'
        ∧ v'.groups[0]? = some ((ctxC.obj.mesh.vertices.get ⟨0, by decide⟩).groups.get
            ⟨0, by decide⟩)) := by
  refine ⟨by decide, by decide, by decide, ?_⟩
  obtain ⟨out, v', h1, h2, h3, h4, _⟩ := claim_C5 ctxC (IndexCoherent_single _ rfl)
    (by decide) (by decide) ⟨"A"⟩ (by decide) (by decide) 0 (by decide) 0 (by decide)
    (by decide) (by decide) (by decide) (by decide) (by decide)
  exact ⟨out, v', h1, h2, h3, h4⟩

/-- Claim C8: a successful normalize never changes the weight list a
vertex carries on a group outside the armature-group set: the per-vertex
algorithm reads and writes collected (armature) entries only, and the
Guarantor only appends armature-group entries. -/
theorem claim_C8 (ctx : Context)
    (hco : IndexCoherent ctx.obj.mesh)
    (hb : bonesOf ctx ≠ [])
    (grp : VertexGroup)
    (hget : ctx.obj.vertex_groups.get? ctx.obj.active_index = some grp)
    (hname : grp.name ∈ bonesOf ctx)
    (i : Nat) (hi : i < ctx.obj.mesh.vertices.length)
    (g : Nat) (hg : g ∉ boneIndexes ctx.obj.vertex_groups (bonesOf ctx)) :
    ∃ out v', normalize_armature ctx = some out
      ∧ out.status = "FINISHED"
      ∧ out.ctx.obj.mesh.vertices[i]? = some v'
      ∧ groupWeights g v'.groups
          = groupWeights g (ctx.obj.mesh.vertices.get ⟨i, hi⟩).groups := by
  obtain ⟨out, h1, h2, _, _, h5⟩ := normalize_armature_success ctx hco hb grp hget hname
  obtain ⟨v', es', hv1, _, hv3, hv4⟩ := h5 i hi
  set bi := boneIndexes ctx.obj.vertex_groups (bonesOf ctx) with hbi
  set es0 := (ctx.obj.mesh.vertices.get ⟨i, hi⟩).groups with hes0
  obtain ⟨hlen, hpt⟩ := NVE_shape bi ctx.obj.active_index (assignedGroups bi es0) es' hv3
  refine ⟨out, v', h1, h2, hv1, ?_⟩
  rw [hv4]
  have h1g : groupWeights g es' = groupWeights g (assignedGroups bi es0) :=
    groupWeights_of_shape bi g hg (assignedGroups bi es0) es' hlen hpt
  rw [h1g]
  exact groupWeights_assignedGroups bi es0 g hg

/-- Claim C8, witness: the non-armature group 1 (named "X") keeps its
weight list [3/4] through a successful normalize. -/
theorem claim_C8_witness :
    (1 : Nat) ∉ boneIndexes ctxFrame.obj.vertex_groups (bonesOf ctxFrame)
    ∧ (∃ out v', normalize_armature ctxFrame = some out
        ∧ out.status = "FINISHED"
        ∧ out.ctx.obj.mesh.vertices[0]? = some v'
        ∧ groupWeights 1 v'.groups
            = groupWeights 1 (ctxFrame.obj.mesh.vertices.get ⟨0, by decide⟩).groups) :=
  ⟨by decide, claim_C8 ctxFrame (IndexCoherent_single _ rfl) (by decide) ⟨"A"⟩
      (by decide) (by decide) 0 (by decide) 1 (by decide)⟩
